import Mathlib

/-!
Shallow embedding of the FlashMRM MRM-transition optimizer
(src/config.py, src/data_loader.py, src/interference_calculator.py,
src/ion_optimizer.py, src/mrm_optimizer.py), with theorems settling the
frozen claims about it.

Masses, intensities, retention times and collision energies are modelled
as exact rationals; records are Lean structures mirroring the dataframe
columns the code reads.  Chunked reads, caching and logging are pure
performance/diagnostic mechanisms and are elided: they do not change
which rows a query returns or which candidate wins.
-/

namespace FlashMRM

/-- Configuration constants, from src/config.py (field defaults mirror the
dataclass defaults; paths and batching knobs irrelevant to the embedded
computations are omitted). -/
structure Config where
  MZ_TOLERANCE : ℚ := 7/10
  RT_TOLERANCE : ℚ := 2
  MSMS_TOLERANCE : ℚ := 7/10
  PRECURSOR_MZ_MIN_DIFF : ℚ := 140126/10000
  ION_PAIR_MIN_DIFF : ℚ := 2
  MAX_IONS_PER_CE : ℕ := 10
  RT_OFFSET : ℚ := 0
  SENSITIVITY_WEIGHT : ℚ := 1/2
  SPECIFICITY_WEIGHT : ℚ := 1/2
  CE_SLOPE : ℚ := 5788/10000
  CE_INTERCEPT : ℚ := 94452/10000
deriving DecidableEq

/-- The default configuration (the dataclass defaults). -/
def defaultConfig : Config := {}

/-- One fragment-ion row of the Pesudo-TQDB spectral library
(columns read by the code: Name, InChIKey, Precursor_type, PrecursorMZ,
RT, Ion_mode, MSMS, intensity, NCE, CE). -/
structure SRec where
  name : String
  inchikey : String
  precursorType : String
  precursorMZ : ℚ
  rt : ℚ
  ionMode : String
  msms : ℚ
  intensity : ℚ
  nce : ℚ
  ce : ℚ
deriving DecidableEq

/-- One interference row for the NIST (coverage) method
(columns read: InChIKey, PrecursorMZ, RT, Ion_mode, MSMS, NCE). -/
structure IRecN where
  inchikey : String
  precursorMZ : ℚ
  rt : ℚ
  ionMode : String
  msms : ℚ
  nce : ℚ
deriving DecidableEq

/-- One interference row for the QE (overlap) method
(columns read: Alignment ID, Average Mz, Average Rt(min), CE,
MS/MS spectrum).  A missing (NaN) spectrum cell is `none`. -/
structure IRecQE where
  alignmentId : ℕ
  avgMz : ℚ
  avgRt : ℚ
  ce : ℚ
  spectrum : Option String
deriving DecidableEq

/-- A candidate ion pair for the NIST method
(columns MSMS1, intensity1, NCE1, CE1, MSMS2, intensity2, NCE2, CE2). -/
structure CandN where
  msms1 : ℚ
  intensity1 : ℚ
  nce1 : ℚ
  ce1 : ℚ
  msms2 : ℚ
  intensity2 : ℚ
  nce2 : ℚ
  ce2 : ℚ
deriving DecidableEq

/-- A candidate ion pair for the QE method
(columns MSMS1, intensity1, CE1, MSMS2, intensity2, CE2). -/
structure CandQE where
  msms1 : ℚ
  intensity1 : ℚ
  ce1 : ℚ
  msms2 : ℚ
  intensity2 : ℚ
  ce2 : ℚ
deriving DecidableEq

/-- A scored NIST candidate: the derived columns added by
IonPairOptimizerNIST.calculate_scores. -/
structure ScoredN extends CandN where
  hitNum : ℕ
  hitRate : ℚ
  intensitySum : ℚ
  sensitivityScore : ℚ
  specificityScore : ℚ
  score : ℚ
deriving DecidableEq

/-- A scored QE candidate: the derived columns added by
IonPairOptimizerQE.calculate_scores. -/
structure ScoredQE extends CandQE where
  interferenceLevel1 : ℚ
  interferenceLevel2 : ℚ
  intensitySum : ℚ
  interferenceLevelSum : ℚ
  sensitivityScore : ℚ
  specificityScore : ℚ
  score : ℚ
deriving DecidableEq

/-! ### Small list utilities shared by the embedded functions -/

/-- Maximum of a list of rationals (pandas `Series.max`); the `[]` case is
unreachable at every call site (the code only takes a column max of a
nonempty frame). -/
def maxListQ : List ℚ → ℚ
  | [] => 0
  | [x] => x
  | x :: y :: xs => max x (maxListQ (y :: xs))

/-- Maximum of a list of naturals (pandas max of the hit_num column). -/
def maxListN (l : List ℕ) : ℕ := l.foldr max 0

/-- Insert into a descending-by-`f` sorted list (stable). -/
def insertByDesc (f : α → ℚ) (c : α) : List α → List α
  | [] => [c]
  | d :: ds => if f d < f c then c :: d :: ds else d :: insertByDesc f c ds

/-- Stable descending sort by `f` (models pandas
`sort_values(..., ascending=False)` / `nlargest`; the source's quicksort
leaves tie order unspecified, so any permutation with the same key order
is a faithful model). -/
def sortByDesc (f : α → ℚ) (l : List α) : List α := l.foldr (insertByDesc f) []

/-- Keep the first occurrence per `key` value (pandas
`drop_duplicates(keys, keep='first')`); `seen` accumulates keys already
emitted. -/
def dedupByKey [DecidableEq β] (key : α → β) : List α → List β → List α
  | [], _ => []
  | x :: xs, seen =>
    if key x ∈ seen then dedupByKey key xs seen
    else x :: dedupByKey key xs (key x :: seen)

/-- All unordered pairs of list elements in order
(itertools.combinations(l, 2)). -/
def allPairs : List α → List (α × α)
  | [] => []
  | x :: xs => (xs.map fun y => (x, y)) ++ allPairs xs

/-- Count of distinct values in a list (pandas `len(col.unique())`). -/
def distinctCount [DecidableEq α] (l : List α) : ℕ := l.toFinset.card

/-! ### String utilities (Python str methods used by the loader/parser) -/

/-- Python `s.replace(' ', '').replace('\t', '').replace('\n', '')`
(note: carriage returns and other whitespace are NOT removed here,
unlike the regex variant below — mirroring the source). -/
def removeSTN (s : String) : String :=
  String.mk (s.toList.filter fun c => c ≠ ' ' && c ≠ '\t' && c ≠ '\n')

/-- Pandas `str.replace(r'\s+', '', regex=True)`: drop every whitespace
character. -/
def removeWsAll (s : String) : String :=
  String.mk (s.toList.filter fun c => !c.isWhitespace)

/-- Python `str.split()` with no argument: split on whitespace runs,
dropping empty tokens. -/
def splitWhitespace (s : String) : List String :=
  (s.split Char.isWhitespace).filter (· ≠ "")

/-- Split a token at its FIRST colon (Python `peak.split(':', 1)`):
returns the part before and the part after (which may itself contain
colons). -/
def splitFirstColon (s : String) : String × String :=
  (String.mk (s.toList.takeWhile (· ≠ ':')),
   String.mk ((s.toList.dropWhile (· ≠ ':')).drop 1))

/-! ### A model of Python `float()` on finite decimal literals

`parseDecimal` accepts an optional sign, decimal digits with an optional
fractional part, and an optional exponent — the shapes that occur in
encoded peak lists.  Python also accepts `inf`/`nan` spellings; those are
not modelled (an `inf`/`nan` mass never passes the tolerance comparison
in the source, so a parse failure — which skips the peak — yields the
same contribution). -/

/-- Digits of a char list read as a natural number. -/
def digitsToNat (cs : List Char) : ℕ :=
  cs.foldl (fun n c => 10 * n + (c.toNat - 48)) 0

/-- Parse an optional leading sign; returns (negative?, rest). -/
def parseSign : List Char → Bool × List Char
  | '-' :: cs => (true, cs)
  | '+' :: cs => (false, cs)
  | cs => (false, cs)

/-- Parse the exponent suffix after the mantissa: empty, or e/E with an
optionally signed nonempty digit run consuming the whole rest. -/
def parseExponent : List Char → Option ℤ
  | [] => some 0
  | e :: cs =>
    if e = 'e' || e = 'E' then
      let (neg, cs') := parseSign cs
      let ds := cs'.takeWhile Char.isDigit
      if ds.isEmpty || !(cs'.dropWhile Char.isDigit).isEmpty then none
      else some (if neg then -(digitsToNat ds : ℤ) else (digitsToNat ds : ℤ))
    else none

/-- Mantissa (digits, optional point, digits) followed by an exponent;
needs at least one digit overall. -/
def parseMantissa (cs : List Char) : Option ℚ :=
  let intDs := cs.takeWhile Char.isDigit
  let rest := cs.dropWhile Char.isDigit
  let (fracDs, rest') :=
    match rest with
    | '.' :: cs' => (cs'.takeWhile Char.isDigit, cs'.dropWhile Char.isDigit)
    | _ => ([], rest)
  if intDs.isEmpty && fracDs.isEmpty then none
  else
    match parseExponent rest' with
    | none => none
    | some e =>
      some (((digitsToNat intDs : ℚ) + (digitsToNat fracDs : ℚ) / (10 : ℚ) ^ fracDs.length)
            * (10 : ℚ) ^ e)

/-- Model of Python `float(s)` on finite decimal literals (float() strips
surrounding whitespace first). -/
def parseDecimal (s : String) : Option ℚ :=
  let (neg, cs) := parseSign s.trim.toList
  match parseMantissa cs with
  | none => none
  | some q => some (if neg then -q else q)

/-! ### InterferenceCalculatorQE.extract_intensity_from_msms_cached
(src/interference_calculator.py).  The per-instance cache only memoizes a
pure computation and is elided. -/

/-- Contribution of one peak token to the extracted intensity: tokens
without a colon, or whose mass or intensity fails to parse, contribute 0
(the source `continue`s past them); otherwise the parsed intensity when
the parsed mass is within MSMS_TOLERANCE of the target ion, else 0. -/
def peakContribution (cfg : Config) (targetIon : ℚ) (tok : String) : ℚ :=
  if tok.contains ':' then
    match parseDecimal (splitFirstColon tok).1, parseDecimal (splitFirstColon tok).2 with
    | some mz, some intensity =>
        if |mz - targetIon| ≤ cfg.MSMS_TOLERANCE then intensity else 0
    | _, _ => 0
  else 0

/-- The source's accumulation loop over peak tokens. -/
def extractLoop (cfg : Config) (targetIon : ℚ) : List String → ℚ → ℚ
  | [], acc => acc
  | tok :: toks, acc => extractLoop cfg targetIon toks (acc + peakContribution cfg targetIon tok)

/-- InterferenceCalculatorQE.extract_intensity_from_msms_cached: a NaN
cell (`none`) or empty string yields 0; otherwise the peak tokens are
summed. -/
def extractIntensityFromMsms (cfg : Config) (spectrum : Option String) (targetIon : ℚ) : ℚ :=
  match spectrum with
  | none => 0
  | some s => if s = "" then 0 else extractLoop cfg targetIon (splitWhitespace s) 0

/-! ### The lazy loader's key index (src/data_loader.py)

A source is a list of files, each a list of `SRec` rows; files are
identified by their position.  The index maps a normalized key to the
list of file positions containing it, exactly as
LazyFileLoader._build_file_index registers keys (chunking and the
`.unique()` pre-pass only skip idempotent re-insertions and are elided;
the on-disk pickle cache stores the same mapping). -/

/-- The key index: association list from key to file positions. -/
def KIndex := List (String × List ℕ)

/-- `index[key].append(file)` guarded by `if key not in index` /
`if file_path not in index[key]`. -/
def insertFile (idx : List (String × List ℕ)) (k : String) (fi : ℕ) : List (String × List ℕ) :=
  match idx with
  | [] => [(k, [fi])]
  | (k', fs) :: rest =>
    if k' = k then (k', if fi ∈ fs then fs else fs ++ [fi]) :: rest
    else (k', fs) :: insertFile rest k fi

/-- A candidate key is registered only if nonempty, not the string "nan"
and not (case-insensitively) "none" — the astype(str) artifacts of
missing values. -/
def validKey (k : String) : Bool :=
  k ≠ "" && k ≠ "nan" && k.toLower ≠ "none"

/-- A guarded registration (`if <condition>: index[key].append(file)`). -/
def insertIf (c : Bool) (idx : List (String × List ℕ)) (k : String) (fi : ℕ) :
    List (String × List ℕ) :=
  if c then insertFile idx k fi else idx

/-- Index registrations performed for one row, in source order:
(1) the stripped key when valid; (2) its space/tab/newline-free form when
different and nonempty (the source applies no nan/none check here);
(3) the whitespace-free form of the stripped key when valid. -/
def indexRow (fi : ℕ) (idx : List (String × List ℕ)) (r : SRec) : List (String × List ℕ) :=
  let k := r.inchikey.trim
  let idx1 := insertIf (validKey k) idx k fi
  let kSTN := removeSTN k
  let idx2 := insertIf (kSTN ≠ k && kSTN ≠ "") idx1 kSTN fi
  let kClean := (removeWsAll r.inchikey.trim).trim
  insertIf (validKey kClean) idx2 kClean fi

/-- Register every row of one file. -/
def indexFile (fi : ℕ) (idx : List (String × List ℕ)) : List SRec → List (String × List ℕ)
  | [] => idx
  | r :: rs => indexFile fi (indexRow fi idx r) rs

/-- Fold over the files of a source, numbering them from `fi`. -/
def buildFileIndexAux (idx : List (String × List ℕ)) (fi : ℕ) :
    List (List SRec) → List (String × List ℕ)
  | [] => idx
  | file :: rest => buildFileIndexAux (indexFile fi idx file) (fi + 1) rest

/-- LazyFileLoader._build_file_index. -/
def buildFileIndex (src : List (List SRec)) : List (String × List ℕ) :=
  buildFileIndexAux [] 0 src

/-- The files registered under a key (empty when absent; dict lookup). -/
def filesOf : List (String × List ℕ) → String → List ℕ
  | [], _ => []
  | e :: rest, k => if e.1 = k then e.2 else filesOf rest k

/-- The keys of the index, in insertion order. -/
def keysOf (idx : List (String × List ℕ)) : List String := idx.map (·.1)

/-- Python `key in index`. -/
def containsKey : List (String × List ℕ) → String → Bool
  | [], _ => false
  | e :: rest, k => if e.1 = k then true else containsKey rest k

/-- Key resolution of LazyFileLoader.query_by_inchikey: exact membership
first, then a case-insensitive scan over the indexed keys (the source
also collects "similar" keys, but only for logging). -/
def resolveKey (idx : List (String × List ℕ)) (key : String) : Option String :=
  if containsKey idx key then some key
  else
    match (keysOf idx).find? (fun k => k.trim.toLower == key.toLower) with
    | some k => some k.trim
    | none => none

/-- The row-level filter mask: exact stripped equality, whitespace-
normalized equality, or case-insensitive equality against the resolved
key `m`. -/
def rowMatches (m : String) (r : SRec) : Bool :=
  r.inchikey.trim == m
    || removeWsAll r.inchikey.trim == removeSTN m
    || r.inchikey.trim.toLower == m.toLower

/-- LazyFileLoader.query_by_inchikey: normalize the query, resolve it
against the index, read only the registered files and keep the rows the
mask accepts.  (The source also rewrites the returned frame's key column
to its stripped form; no caller reads that column, so rows are returned
unmutated here.) -/
def queryByInchikey (src : List (List SRec)) (q : String) : List SRec :=
  let key := q.trim
  let idx := buildFileIndex src
  match resolveKey idx key with
  | none => []
  | some m => (filesOf idx m).flatMap fun fi => (src.getD fi []).filter (rowMatches m)

/-- LazyFileLoader.query_interference_by_range with use_avg_mz=False
(the NIST branch): rows whose precursor mass and retention time are
within the tolerances.  Batched chunk reads only bound memory and are
elided. -/
def queryInterferenceNIST (rows : List IRecN) (precursormz rt mzTol rtTol : ℚ) : List IRecN :=
  rows.filter fun r => |r.precursorMZ - precursormz| ≤ mzTol && |r.rt - rt| ≤ rtTol

/-- LazyFileLoader.query_interference_by_range with use_avg_mz=True
(the QE branch): filter on Average Mz / Average Rt(min). -/
def queryInterferenceQE (rows : List IRecQE) (precursormz rt mzTol rtTol : ℚ) : List IRecQE :=
  rows.filter fun r => |r.avgMz - precursormz| ≤ mzTol && |r.avgRt - rt| ≤ rtTol

/-! ### InterferenceCalculatorNIST (src/interference_calculator.py) -/

/-- InterferenceCalculatorNIST.process_ce_range: the tier whose NCE range
contains `nce`, restricted to records whose fragment mass is within 1 of
`ion`.  The trailing branch mirrors the source's `else: return
pd.DataFrame()` (unreachable over ℚ). -/
def processCeRange (low med high : List IRecN) (ion nce : ℚ) : List IRecN :=
  if nce ≤ 60 then low.filter fun r => |ion - r.msms| ≤ 1
  else if 60 < nce ∧ nce ≤ 120 then med.filter fun r => |ion - r.msms| ≤ 1
  else if 120 < nce then high.filter fun r => |ion - r.msms| ≤ 1
  else []

/-- The distinct interfering compound keys one ion hits in its own tier. -/
def hitKeys (low med high : List IRecN) (ion nce : ℚ) : Finset String :=
  ((processCeRange low med high ion nce).map IRecN.inchikey).toFinset

/-- InterferenceCalculatorNIST.process_combination: union the two ions'
hit sets by distinct key, count, and divide by the coverage_all argument
when it is nonzero.  (The source also selects per-tier coverages
coverage1/coverage2 from the ions' NCEs but never uses them; the
intensity and CE fields of `row` are likewise read and unused.) -/
def processCombination (row : CandN) (low med high : List IRecN)
    (covLow covMed covHigh covAll : ℕ) : ℕ × ℚ :=
  let result1 := processCeRange low med high row.msms1 row.nce1
  let result2 := processCeRange low med high row.msms2 row.nce2
  let common := ((result1.map IRecN.inchikey).toFinset ∪ (result2.map IRecN.inchikey).toFinset)
  let hitNum := common.card
  let hitRate : ℚ := if covAll ≠ 0 then (hitNum : ℚ) / (covAll : ℚ) else 0
  (hitNum, hitRate)

/-! ### IonPairOptimizerNIST (src/ion_optimizer.py) -/

/-- The combined intensity of a NIST candidate (intensity1 + intensity2). -/
def intensitySumN (c : CandN) : ℚ := c.intensity1 + c.intensity2

/-- The combined intensity of a QE candidate. -/
def intensitySumQE (c : CandQE) : ℚ := c.intensity1 + c.intensity2

/-- Per-tier processing of filter_and_rank_ions: sort by intensity
descending, deduplicate by (name, fragment mass) keeping the first
(highest-intensity) entry, keep the top `k`. -/
def rankTier (k : ℕ) (l : List SRec) : List SRec :=
  (dedupByKey (fun r => (r.name, r.msms)) (sortByDesc SRec.intensity l) []).take k

/-- IonPairOptimizerNIST.filter_and_rank_ions: NCE tiers ≤60, (60,120],
>120, top 10 each after sorting and (name, MSMS) deduplication. -/
def filterAndRankIonsNIST (wg : List SRec) : List SRec :=
  rankTier 10 (wg.filter fun r => r.nce ≤ 60)
    ++ rankTier 10 (wg.filter fun r => 60 < r.nce && r.nce ≤ 120)
    ++ rankTier 10 (wg.filter fun r => 120 < r.nce)

/-- IonPairOptimizerQE.filter_and_rank_ions: raw-CE tiers ≤20, (20,40],
>40, top MAX_IONS_PER_CE each.  (The source skips empty tiers before
concatenating; concatenating an empty tier is the same list.) -/
def filterAndRankIonsQE (cfg : Config) (wg : List SRec) : List SRec :=
  rankTier cfg.MAX_IONS_PER_CE (wg.filter fun r => r.ce ≤ 20)
    ++ rankTier cfg.MAX_IONS_PER_CE (wg.filter fun r => 20 < r.ce && r.ce ≤ 40)
    ++ rankTier cfg.MAX_IONS_PER_CE (wg.filter fun r => 40 < r.ce)

/-- The near-duplicate suppression inside
IonPairOptimizerNIST.generate_ion_pairs: walking the intensity-sorted
rows, drop any ion whose fragment mass is within 0.001 of an
already-accepted one (`used` accumulates accepted masses). -/
def dedupTol : List SRec → List ℚ → List SRec
  | [], _ => []
  | r :: rs, used =>
    if used.any (fun u => |r.msms - u| < 1/1000) then dedupTol rs used
    else r :: dedupTol rs (r.msms :: used)

/-- Build a NIST candidate from two rows. -/
def mkCandN (r1 r2 : SRec) : CandN :=
  ⟨r1.msms, r1.intensity, r1.nce, r1.ce, r2.msms, r2.intensity, r2.nce, r2.ce⟩

/-- Build a QE candidate from two rows. -/
def mkCandQE (r1 r2 : SRec) : CandQE :=
  ⟨r1.msms, r1.intensity, r1.ce, r2.msms, r2.intensity, r2.ce⟩

/-- IonPairOptimizerNIST.generate_ion_pairs: sort by intensity
descending, suppress near-duplicate masses (tolerance 0.001), require at
least 2 surviving ions, then form every unordered pair whose masses are
distinct and at least 2.0 apart (the separation is the literal 2.0 in
the source, not a config field). -/
def generateIonPairsNIST (wg : List SRec) : List CandN :=
  if wg.length < 1 then []
  else
    let uniqueIons := dedupTol (sortByDesc SRec.intensity wg) []
    if uniqueIons.length < 2 then []
    else
      (allPairs uniqueIons).filterMap fun p =>
        if p.1.msms ≠ p.2.msms ∧ 2 ≤ |p.1.msms - p.2.msms| then some (mkCandN p.1 p.2)
        else none

/-- IonPairOptimizerQE.generate_ion_pairs: every unordered pair of the
filtered ions whose masses are distinct and at least ION_PAIR_MIN_DIFF
apart. -/
def generateIonPairsQE (cfg : Config) (ions : List SRec) : List CandQE :=
  if ions.length < 2 then []
  else
    (allPairs ions).filterMap fun p =>
      if p.1.msms ≠ p.2.msms ∧ cfg.ION_PAIR_MIN_DIFF ≤ |p.1.msms - p.2.msms| then
        some (mkCandQE p.1 p.2)
      else none

/-- The NIST sensitivity column: intensity_sum / max when the max is
positive, else 0. -/
def nistSens (maxSum x : ℚ) : ℚ := if 0 < maxSum then x / maxSum else 0

/-- The NIST specificity column: 1 - hit_num / max hit_num when the max
is positive, else 1. -/
def nistSpec (maxHit hit : ℕ) : ℚ := if 0 < maxHit then 1 - (hit : ℚ) / (maxHit : ℚ) else 1

/-- The maximum combined intensity over a NIST candidate list. -/
def nistMaxIntensity (cands : List CandN) : ℚ := maxListQ (cands.map intensitySumN)

/-- The hit count process_combination assigns to one candidate. -/
def nistHitNum (low med high : List IRecN) (covLow covMed covHigh covAll : ℕ) (c : CandN) : ℕ :=
  (processCombination c low med high covLow covMed covHigh covAll).1

/-- The maximum hit count over a NIST candidate list. -/
def nistMaxHit (cands : List CandN) (low med high : List IRecN)
    (covLow covMed covHigh covAll : ℕ) : ℕ :=
  maxListN (cands.map (nistHitNum low med high covLow covMed covHigh covAll))

/-- The scored row calculate_scores produces for one NIST candidate,
given the column maxima. -/
def scoreOneNIST (cfg : Config) (maxSum : ℚ) (maxHit : ℕ) (low med high : List IRecN)
    (covLow covMed covHigh covAll : ℕ) (c : CandN) : ScoredN :=
  let hr := processCombination c low med high covLow covMed covHigh covAll
  let s := intensitySumN c
  let sens := nistSens maxSum s
  let spec := nistSpec maxHit hr.1
  { toCandN := c, hitNum := hr.1, hitRate := hr.2, intensitySum := s,
    sensitivityScore := sens, specificityScore := spec,
    score := sens * cfg.SENSITIVITY_WEIGHT + spec * cfg.SPECIFICITY_WEIGHT }

/-- IonPairOptimizerNIST.calculate_scores (the source's column-wise
assignments, as a map with the two column maxima precomputed). -/
def calculateScoresNIST (cfg : Config) (cands : List CandN) (low med high : List IRecN)
    (covLow covMed covHigh covAll : ℕ) : List ScoredN :=
  cands.map (scoreOneNIST cfg (nistMaxIntensity cands)
    (nistMaxHit cands low med high covLow covMed covHigh covAll)
    low med high covLow covMed covHigh covAll)

/-- The unordered-mass-pair key `tuple(sorted([MSMS1, MSMS2]))` of a
scored NIST candidate. -/
def pairKeyN (c : ScoredN) : ℚ × ℚ :=
  if c.msms1 ≤ c.msms2 then (c.msms1, c.msms2) else (c.msms2, c.msms1)

/-- The unordered-mass-pair key of a scored QE candidate. -/
def pairKeyQE (c : ScoredQE) : ℚ × ℚ :=
  if c.msms1 ≤ c.msms2 then (c.msms1, c.msms2) else (c.msms2, c.msms1)

/-- The NIST pair deduplication
(`drop_duplicates(subset='MSMS_combined')`): first occurrence per
unordered mass pair, in the frame's existing order. -/
def dedupPairsNIST (l : List ScoredN) : List ScoredN := dedupByKey pairKeyN l []

/-- First element attaining the maximum score of a list (pandas
`idxmax`, which returns the first index of the maximum). -/
def argmaxScoreN (l : List ScoredN) : Option ScoredN :=
  l.find? fun c => c.score == maxListQ (l.map ScoredN.score)

/-- First element attaining the maximum score (QE). -/
def argmaxScoreQE (l : List ScoredQE) : Option ScoredQE :=
  l.find? fun c => c.score == maxListQ (l.map ScoredQE.score)

/-- IonPairOptimizerNIST.select_best_pairs: deduplicate by unordered
mass pair (keep first), then the best row and the 10 largest by score.
Returns `none` on an empty frame, where the source's `idxmax` would
raise (unreachable in the pipeline). -/
def selectBestPairsNIST (l : List ScoredN) : Option (ScoredN × List ScoredN) :=
  let d := dedupPairsNIST l
  match argmaxScoreN d with
  | none => none
  | some m => some (m, (sortByDesc ScoredN.score d).take 10)

/-- The keys of a QE candidate list in first-occurrence order. -/
def pairKeysQE (l : List ScoredQE) : List (ℚ × ℚ) := dedupByKey id (l.map pairKeyQE) []

/-- The row `groupby('MSMS_combined')['score'].idxmax()` selects for one
group: the first row of the group attaining the group's maximum score. -/
def groupArgmax (l : List ScoredQE) (k : ℚ × ℚ) : Option ScoredQE :=
  let g := l.filter fun c => pairKeyQE c = k
  g.find? fun c => c.score == maxListQ (g.map ScoredQE.score)

/-- The QE pair deduplication (`.loc[groupby('MSMS_combined')['score']
.idxmax()]`): per unordered mass pair, keep the first row attaining the
group's maximum score.  (pandas emits the survivors in sorted-key order;
first-occurrence order is used here — the surviving set, which is all
downstream consumers observe through idxmax/nlargest, is identical.) -/
def dedupPairsQE (l : List ScoredQE) : List ScoredQE :=
  (pairKeysQE l).filterMap (groupArgmax l)

/-- IonPairOptimizerQE.select_best_pairs: deduplicate keeping the
max-score row per unordered mass pair, then the best row and the 5
largest by score. -/
def selectBestPairsQE (l : List ScoredQE) : Option (ScoredQE × List ScoredQE) :=
  let d := dedupPairsQE l
  match argmaxScoreQE d with
  | none => none
  | some m => some (m, (sortByDesc ScoredQE.score d).take 5)

/-! ### IonPairOptimizerQE.calculate_scores -/

/-- The interference tier for one ion's raw CE (≤20 low, ≤40 medium,
else high). -/
def qeTier (low med high : List IRecQE) (ce : ℚ) : List IRecQE :=
  if ce ≤ 20 then low else if ce ≤ 40 then med else high

/-- The summed extracted intensity of one target ion over its CE tier. -/
def qeLevel (cfg : Config) (low med high : List IRecQE) (ce ion : ℚ) : ℚ :=
  ((qeTier low med high ce).map fun r => extractIntensityFromMsms cfg r.spectrum ion).sum

/-- interference_level1 + interference_level2 of one QE candidate. -/
def qeIntfSum (cfg : Config) (low med high : List IRecQE) (c : CandQE) : ℚ :=
  qeLevel cfg low med high c.ce1 c.msms1 + qeLevel cfg low med high c.ce2 c.msms2

/-- The maximum combined intensity over a QE candidate list. -/
def qeMaxIntensity (cands : List CandQE) : ℚ := maxListQ (cands.map intensitySumQE)

/-- The maximum summed interference over a QE candidate list. -/
def qeMaxInterference (cfg : Config) (cands : List CandQE) (low med high : List IRecQE) : ℚ :=
  maxListQ (cands.map (qeIntfSum cfg low med high))

/-- The scored row calculate_scores produces for one QE candidate given
the two column maxima: the normalized branch when both maxima are
positive, otherwise the raw-intensity fallback. -/
def scoreOneQE (cfg : Config) (maxI maxF : ℚ) (low med high : List IRecQE) (c : CandQE) : ScoredQE :=
  let l1 := qeLevel cfg low med high c.ce1 c.msms1
  let l2 := qeLevel cfg low med high c.ce2 c.msms2
  let isum := intensitySumQE c
  let fsum := l1 + l2
  if 0 < maxI ∧ 0 < maxF then
    { toCandQE := c, interferenceLevel1 := l1, interferenceLevel2 := l2,
      intensitySum := isum, interferenceLevelSum := fsum,
      sensitivityScore := isum / maxI, specificityScore := -(1 + fsum) / (1 + maxF),
      score := (isum / maxI) * cfg.SENSITIVITY_WEIGHT
                + (-(1 + fsum) / (1 + maxF)) * cfg.SPECIFICITY_WEIGHT }
  else
    { toCandQE := c, interferenceLevel1 := l1, interferenceLevel2 := l2,
      intensitySum := isum, interferenceLevelSum := fsum,
      sensitivityScore := isum, specificityScore := -fsum,
      score := isum }

/-- IonPairOptimizerQE.calculate_scores. -/
def calculateScoresQE (cfg : Config) (cands : List CandQE) (low med high : List IRecQE) :
    List ScoredQE :=
  cands.map (scoreOneQE cfg (qeMaxIntensity cands) (qeMaxInterference cfg cands low med high)
    low med high)

/-! ### MRMOptimizer (src/mrm_optimizer.py) -/

/-- A NIST-method result row: either the "no combination" sentinel row
(returned when no valid ion-pair combination exists, with zeroed
coverages and score) or a full success row.  The heterogeneous Python
dicts are modelled as constructors. -/
inductive NistResult where
  | noCombination (chemical : String) (precursorMZ : ℚ) (inchikey : String) (rt : ℚ)
  | success (chemical : String) (precursorMZ : ℚ) (inchikey : String) (rt : ℚ)
      (covAll covLow covMed covHigh : ℕ) (msms1 msms2 ceQQQ1 ceQQQ2 : ℚ)
      (best10 : List ScoredN) (maxScore sens spec isum : ℚ)
deriving DecidableEq

/-- A QE-method result row (the QE path returns no sentinel rows). -/
structure QEResult where
  chemical : String
  precursorMZ : ℚ
  inchikey : String
  rt : ℚ
  covAll : ℕ
  covLow : ℕ
  covMed : ℕ
  covHigh : ℕ
  msms1 : ℚ
  msms2 : ℚ
  ceQQQ1 : ℚ
  ceQQQ2 : ℚ
  best5 : List ScoredQE
  maxScore : ℚ
  sens : ℚ
  spec : ℚ
deriving DecidableEq

/-- The fragment-ion filter of process_compound_nist/qe: keep rows whose
fragment mass is more than PRECURSOR_MZ_MIN_DIFF from the precursor
mass. -/
def precursorProximityFilter (cfg : Config) (l : List SRec) (precursormz : ℚ) : List SRec :=
  l.filter fun r => |r.msms - precursormz| > cfg.PRECURSOR_MZ_MIN_DIFF

/-- The rows process_compound_nist still has after the [M+H]+ filter and
the precursor-proximity filter (precursor mass taken from the first
[M+H]+ row, as in the source). -/
def usableIonsNIST (cfg : Config) (src : List (List SRec)) (inchikey : String) : List SRec :=
  match (queryByInchikey src inchikey).filter (fun r => r.precursorType = "[M+H]+") with
  | [] => []
  | first :: rest => precursorProximityFilter cfg (first :: rest) first.precursorMZ

/-- MRMOptimizer.process_compound_nist.  Returns `none` exactly where the
source returns None (no data for the key, no [M+H]+ rows, fewer than 2
ions after the precursor-proximity filter, none after ranking); returns
the "no combination" sentinel row when pair generation yields no
candidates.  (The compound display name falls back from Name_x to Name
to the key in the source; the single `name` field stands for the
resolved value.  The CE-NaN guard around the QQQ conversion cannot fire
over ℚ.) -/
def processCompoundNIST (cfg : Config) (src : List (List SRec)) (intfSrc : List IRecN)
    (inchikey : String) : Option NistResult :=
  let wg0 := queryByInchikey src inchikey
  if wg0.length = 0 then none
  else
    match wg0.filter (fun r => r.precursorType = "[M+H]+") with
    | [] => none
    | first :: rest =>
      let precursormz := first.precursorMZ
      let rt := first.rt
      let ionMode := first.ionMode
      let chemical := first.name
      let wg2 := precursorProximityFilter cfg (first :: rest) precursormz
      if wg2.length < 2 then none
      else
        let workingGroup := filterAndRankIonsNIST wg2
        if workingGroup.length < 1 then none
        else
          let cand := generateIonPairsNIST workingGroup
          if cand.length < 1 then some (.noCombination chemical precursormz inchikey rt)
          else
            let intf0 := queryInterferenceNIST intfSrc precursormz rt (7/10) cfg.RT_TOLERANCE
            let intf := intf0.filter fun r => r.ionMode = ionMode
            let low := intf.filter fun r => r.nce ≤ 60
            let med := intf.filter fun r => r.nce ≤ 120 && 60 < r.nce
            let high := intf.filter fun r => 120 < r.nce
            let covLow := distinctCount (low.map IRecN.inchikey)
            let covMed := distinctCount (med.map IRecN.inchikey)
            let covHigh := distinctCount (high.map IRecN.inchikey)
            let covAll := distinctCount (intf.map IRecN.inchikey)
            let scored := calculateScoresNIST cfg cand low med high covLow covMed covHigh covAll
            match selectBestPairsNIST scored with
            | none => none
            | some (maxRow, max10) =>
              some (.success chemical precursormz inchikey rt covAll covLow covMed covHigh
                maxRow.msms1 maxRow.msms2
                (cfg.CE_SLOPE * maxRow.ce1 + cfg.CE_INTERCEPT)
                (cfg.CE_SLOPE * maxRow.ce2 + cfg.CE_INTERCEPT)
                max10 maxRow.score maxRow.sensitivityScore maxRow.specificityScore
                maxRow.intensitySum)

/-- The rows process_compound_qe still has after its [M+H]+ and
precursor-proximity filters. -/
def usableIonsQE (cfg : Config) (src : List (List SRec)) (inchikey : String) : List SRec :=
  usableIonsNIST cfg src inchikey

/-- MRMOptimizer.process_compound_qe.  Returns `none` where the source
returns None: no data, no [M+H]+ rows, fewer than 2 usable ions, fewer
than 2 after ranking, or no candidate pairs (the QE path records no
sentinel row). -/
def processCompoundQE (cfg : Config) (src : List (List SRec)) (intfSrc : List IRecQE)
    (inchikey : String) : Option QEResult :=
  let wg0 := queryByInchikey src inchikey
  if wg0.length = 0 then none
  else
    match wg0.filter (fun r => r.precursorType = "[M+H]+") with
    | [] => none
    | first :: rest =>
      let precursormz := first.precursorMZ
      let rt := first.rt + cfg.RT_OFFSET
      let chemical := first.name
      let wg2 := precursorProximityFilter cfg (first :: rest) precursormz
      if wg2.length < 2 then none
      else
        let filteredIons := filterAndRankIonsQE cfg wg2
        if filteredIons.length < 2 then none
        else
          let cand := generateIonPairsQE cfg filteredIons
          if cand.length = 0 then none
          else
            let rows := queryInterferenceQE intfSrc precursormz rt cfg.MZ_TOLERANCE cfg.RT_TOLERANCE
            let low := rows.filter fun r => r.ce ≤ 20
            let med := rows.filter fun r => 20 < r.ce && r.ce ≤ 40
            let high := rows.filter fun r => 40 < r.ce
            let covLow := distinctCount (low.map IRecQE.alignmentId)
            let covMed := distinctCount (med.map IRecQE.alignmentId)
            let covHigh := distinctCount (high.map IRecQE.alignmentId)
            let covAll := covLow + covMed + covHigh
            let scored := calculateScoresQE cfg cand low med high
            match selectBestPairsQE scored with
            | none => none
            | some (maxRow, max5) =>
              some { chemical := chemical, precursorMZ := precursormz, inchikey := inchikey,
                     rt := rt, covAll := covAll, covLow := covLow, covMed := covMed,
                     covHigh := covHigh, msms1 := maxRow.msms1, msms2 := maxRow.msms2,
                     ceQQQ1 := cfg.CE_SLOPE * maxRow.ce1 + cfg.CE_INTERCEPT,
                     ceQQQ2 := cfg.CE_SLOPE * maxRow.ce2 + cfg.CE_INTERCEPT,
                     best5 := max5, maxScore := maxRow.score,
                     sens := maxRow.sensitivityScore, spec := maxRow.specificityScore }

/-- The batch run loop of MRMOptimizer.run_optimization: process each
target key in order, appending a result row only when processing returns
one (`if result: results.append(result) else: error_count += 1`;
the except-branch likewise appends nothing). -/
def runBatch (step : String → Option ρ) : List String → List ρ
  | [] => []
  | k :: ks =>
    match step k with
    | some r => r :: runBatch step ks
    | none => runBatch step ks

/-- The batch run with the NIST method selected (USE_NIST_METHOD). -/
def runBatchNIST (cfg : Config) (src : List (List SRec)) (intfSrc : List IRecN)
    (keys : List String) : List NistResult :=
  runBatch (processCompoundNIST cfg src intfSrc) keys

/-- The batch run with the QE method selected. -/
def runBatchQE (cfg : Config) (src : List (List SRec)) (intfSrc : List IRecQE)
    (keys : List String) : List QEResult :=
  runBatch (processCompoundQE cfg src intfSrc) keys

/-! ### The coverage tier a given NCE selects (used to state C2) -/

/-- The interference tier matching an NCE (≤60 low, (60,120] medium,
>120 high) — the tier process_ce_range draws its rows from. -/
def tierForNce (low med high : List IRecN) (nce : ℚ) : List IRecN :=
  if nce ≤ 60 then low else if nce ≤ 120 then med else high

/-! ### Concrete instances used by witnesses and counterexamples -/

/-- A library row whose only fragment mass equals its precursor mass, so
the precursor-proximity filter leaves fewer than 2 usable ions. -/
def nearPrecursorRow : SRec := ⟨"X", "KB", "[M+H]+", 300, 5, "P", 300, 500, 50, 10⟩

/-- A second such row (distinct fragment, still within
PRECURSOR_MZ_MIN_DIFF of the precursor). -/
def nearPrecursorRow2 : SRec := ⟨"X", "KB", "[M+H]+", 300, 5, "P", 295, 400, 50, 10⟩

/-- An interference record of compound "A" in the low-NCE tier, within 1
mass unit of fragment 100. -/
def intfRecA : IRecN := ⟨"A", 300, 5, "P", 201/2, 30⟩

/-- An interference record of compound "B" in the medium-NCE tier, far
from both target fragments. -/
def intfRecB : IRecN := ⟨"B", 300, 5, "P", 500, 80⟩

/-- A candidate pair whose two ions both sit in the low-NCE tier; ion 1
hits compound "A", ion 2 hits nothing. -/
def c2Row : CandN := ⟨100, 10, 50, 10, 103, 5, 50, 10⟩

/-- A row with the literal key "nan": the index build skips it, so a
lookup for "nan" misses rows that literally match. -/
def nanKeyRow : SRec := ⟨"X", "nan", "[M+H]+", 300, 5, "P", 100, 50, 30, 10⟩

/-- An ordinary indexed row (for the lookup witnesses). -/
def plainKeyRow : SRec := ⟨"X", "ABCDEF", "[M+H]+", 300, 5, "P", 100, 50, 30, 10⟩

/-- The sensitivity sub-score calculate_scores (NIST) assigns to the
candidate at position `i` (0 when out of range). -/
def nistSensitivityAt (cfg : Config) (cands : List CandN) (low med high : List IRecN)
    (covLow covMed covHigh covAll : ℕ) (i : ℕ) : ℚ :=
  ((calculateScoresNIST cfg cands low med high covLow covMed covHigh covAll).map
    ScoredN.sensitivityScore).getD i 0

/-- The sensitivity sub-score calculate_scores (QE) assigns to the
candidate at position `i` (0 when out of range). -/
def qeSensitivityAt (cfg : Config) (cands : List CandQE) (low med high : List IRecQE)
    (i : ℕ) : ℚ :=
  ((calculateScoresQE cfg cands low med high).map ScoredQE.sensitivityScore).getD i 0

/-- A scored NIST candidate with unordered mass pair {100, 200} and
score 1, occurring first in its candidate list. -/
def scoredNLow : ScoredN :=
  { msms1 := 100, intensity1 := 0, nce1 := 0, ce1 := 0, msms2 := 200, intensity2 := 0,
    nce2 := 0, ce2 := 0, hitNum := 0, hitRate := 0, intensitySum := 0,
    sensitivityScore := 0, specificityScore := 0, score := 1 }

/-- A later duplicate of the same unordered mass pair with the higher
score 5. -/
def scoredNHigh : ScoredN :=
  { msms1 := 200, intensity1 := 0, nce1 := 0, ce1 := 0, msms2 := 100, intensity2 := 0,
    nce2 := 0, ce2 := 0, hitNum := 0, hitRate := 0, intensitySum := 0,
    sensitivityScore := 0, specificityScore := 0, score := 5 }

/-- A scored QE candidate with unordered mass pair {100, 200} and
score 1. -/
def scoredQELow : ScoredQE :=
  { msms1 := 100, intensity1 := 0, ce1 := 0, msms2 := 200, intensity2 := 0, ce2 := 0,
    interferenceLevel1 := 0, interferenceLevel2 := 0, intensitySum := 0,
    interferenceLevelSum := 0, sensitivityScore := 0, specificityScore := 0, score := 1 }

/-- A later duplicate of the same unordered mass pair with score 5. -/
def scoredQEHigh : ScoredQE :=
  { msms1 := 200, intensity1 := 0, ce1 := 0, msms2 := 100, intensity2 := 0, ce2 := 0,
    interferenceLevel1 := 0, interferenceLevel2 := 0, intensitySum := 0,
    interferenceLevelSum := 0, sensitivityScore := 0, specificityScore := 0, score := 5 }

/-- A fragment row far from its precursor (for the C5 witness). -/
def c5Rec1 : SRec := ⟨"W", "K5", "[M+H]+", 300, 5, "P", 100, 500, 50, 10⟩

/-- A second fragment row, 50 mass units from the first. -/
def c5Rec2 : SRec := ⟨"W", "K5", "[M+H]+", 300, 5, "P", 150, 300, 50, 20⟩

/-- A NIST candidate with combined intensity 2 (for the C9 witness). -/
def c9CandA : CandN := ⟨100, 1, 50, 10, 150, 1, 50, 10⟩

/-- A NIST candidate with combined intensity 6. -/
def c9CandB : CandN := ⟨110, 3, 50, 10, 160, 3, 50, 10⟩

/-- A QE candidate with combined intensity 2. -/
def c9QEA : CandQE := ⟨100, 1, 10, 150, 1, 10⟩

/-- A QE candidate with combined intensity 6. -/
def c9QEB : CandQE := ⟨110, 3, 10, 160, 3, 10⟩

/-! ### Supporting lemmas -/

theorem containsKey_eq_false (k : String) :
    ∀ idx : List (String × List ℕ), k ∉ keysOf idx → containsKey idx k = false := by
  intro idx
  induction idx with
  | nil => intro _; rfl
  | cons e rest ih =>
    intro h
    unfold containsKey
    have hne : e.1 ≠ k := fun he => h (he ▸ List.mem_cons_self e.1 (keysOf rest))
    rw [if_neg hne]
    exact ih fun hm => h (List.mem_cons_of_mem _ hm)

theorem containsKey_eq_true (k : String) (fj : ℕ) :
    ∀ idx : List (String × List ℕ), fj ∈ filesOf idx k → containsKey idx k = true := by
  intro idx
  induction idx with
  | nil => intro h; cases h
  | cons e rest ih =>
    intro h
    unfold containsKey
    unfold filesOf at h
    by_cases he : e.1 = k
    · rw [if_pos he]
    · rw [if_neg he] at h
      rw [if_neg he]
      exact ih h

theorem set_get_self : ∀ (l : List α) (i : ℕ) (hi : i < l.length), l.set i (l.get ⟨i, hi⟩) = l := by
  intro l
  induction l with
  | nil => intro i hi; exact absurd hi (Nat.not_lt_zero i)
  | cons a as ih =>
    intro i hi
    cases i with
    | zero => rfl
    | succ n =>
      show a :: as.set n (as.get ⟨n, _⟩) = a :: as
      rw [ih n (Nat.lt_of_succ_lt_succ hi)]

theorem le_maxListQ : ∀ (l : List ℚ), ∀ a ∈ l, a ≤ maxListQ l := by
  intro l
  induction l with
  | nil => intro a ha; cases ha
  | cons x xs ih =>
    intro a ha
    cases xs with
    | nil =>
      rcases List.mem_singleton.mp ha with rfl
      exact le_refl _
    | cons y ys =>
      rcases List.mem_cons.mp ha with rfl | h
      · exact le_max_left _ _
      · exact le_trans (ih a h) (le_max_right _ _)

theorem maxListQ_le (b : ℚ) : ∀ (l : List ℚ), l ≠ [] → (∀ a ∈ l, a ≤ b) → maxListQ l ≤ b := by
  intro l
  induction l with
  | nil => intro h; exact absurd rfl h
  | cons x xs ih =>
    intro _ hb
    cases xs with
    | nil => exact hb x (List.mem_singleton.mpr rfl)
    | cons y ys =>
      apply max_le (hb x (List.mem_cons_self _ _))
      exact ih (List.cons_ne_nil _ _) fun a ha => hb a (List.mem_cons_of_mem _ ha)

theorem maxListQ_mem : ∀ (l : List ℚ), l ≠ [] → maxListQ l ∈ l := by
  intro l
  induction l with
  | nil => intro h; exact absurd rfl h
  | cons x xs ih =>
    intro _
    cases xs with
    | nil => exact List.mem_singleton.mpr rfl
    | cons y ys =>
      show max x (maxListQ (y :: ys)) ∈ _
      rcases max_choice x (maxListQ (y :: ys)) with h | h
      · rw [h]; exact List.mem_cons_self _ _
      · rw [h]; exact List.mem_cons_of_mem _ (ih (List.cons_ne_nil _ _))

theorem dedupByKey_subset [DecidableEq β] (key : α → β) :
    ∀ (l : List α) (seen : List β) (c : α), c ∈ dedupByKey key l seen → c ∈ l := by
  intro l
  induction l with
  | nil => intro seen c h; cases h
  | cons x xs ih =>
    intro seen c h
    unfold dedupByKey at h
    split at h
    · exact List.mem_cons_of_mem _ (ih _ c h)
    · rcases List.mem_cons.mp h with rfl | h'
      · exact List.mem_cons_self _ _
      · exact List.mem_cons_of_mem _ (ih _ c h')

theorem dedupByKey_keys_fresh [DecidableEq β] (key : α → β) :
    ∀ (l : List α) (seen : List β),
      ((dedupByKey key l seen).map key).Nodup
        ∧ ∀ b ∈ (dedupByKey key l seen).map key, b ∉ seen := by
  intro l
  induction l with
  | nil => intro seen; exact ⟨List.nodup_nil, by intro b hb; cases hb⟩
  | cons x xs ih =>
    intro seen
    unfold dedupByKey
    split
    · exact ih seen
    · rename_i hx
      have ihx := ih (key x :: seen)
      refine ⟨?_, ?_⟩
      · rw [List.map_cons, List.nodup_cons]
        constructor
        · intro hmem
          exact (ihx.2 (key x) hmem) (List.mem_cons_self _ _)
        · exact ihx.1
      · intro b hb
        rcases List.mem_cons.mp hb with rfl | hb'
        · exact hx
        · intro hbs
          exact (ihx.2 b hb') (List.mem_cons_of_mem _ hbs)

theorem dedupByKey_find [DecidableEq β] (key : α → β) :
    ∀ (l : List α) (seen : List β) (c : α), c ∈ dedupByKey key l seen →
      key c ∉ seen ∧ l.find? (fun d => decide (key d = key c)) = some c := by
  intro l
  induction l with
  | nil => intro seen c h; cases h
  | cons x xs ih =>
    intro seen c h
    unfold dedupByKey at h
    split at h
    · rename_i hx
      obtain ⟨hns, hfind⟩ := ih seen c h
      refine ⟨hns, ?_⟩
      rw [List.find?_cons]
      have hne : (decide (key x = key c)) = false := by
        apply decide_eq_false
        intro he
        exact hns (he ▸ hx)
      rw [hne]
      exact hfind
    · rename_i hx
      rcases List.mem_cons.mp h with rfl | h'
      · refine ⟨hx, ?_⟩
        rw [List.find?_cons]
        have hT : (decide (key c = key c)) = true := by simp
        rw [hT]
      · obtain ⟨hns, hfind⟩ := ih (key x :: seen) c h'
        have hxc : key c ≠ key x := fun he => hns (he ▸ List.mem_cons_self _ _)
        refine ⟨fun hs => hns (List.mem_cons_of_mem _ hs), ?_⟩
        rw [List.find?_cons]
        have hne : (decide (key x = key c)) = false := decide_eq_false fun he => hxc he.symm
        rw [hne]
        exact hfind

theorem groupArgmax_spec (l : List ScoredQE) (k : ℚ × ℚ) (c : ScoredQE)
    (h : groupArgmax l k = some c) :
    c ∈ l ∧ pairKeyQE c = k
      ∧ ∀ d ∈ l, pairKeyQE d = pairKeyQE c → d.score ≤ c.score := by
  unfold groupArgmax at h
  have hmem := List.mem_of_find?_eq_some h
  have hpred := List.find?_some h
  rw [beq_iff_eq] at hpred
  have hcl := List.mem_filter.mp hmem
  have hck : pairKeyQE c = k := by simpa using hcl.2
  refine ⟨hcl.1, hck, ?_⟩
  intro d hd hdk
  have hdg : d ∈ l.filter fun e => pairKeyQE e = k := by
    rw [List.mem_filter]
    exact ⟨hd, by simp [hdk, hck]⟩
  have : d.score ∈ (l.filter fun e => pairKeyQE e = k).map ScoredQE.score :=
    List.mem_map_of_mem _ hdg
  calc d.score ≤ maxListQ ((l.filter fun e => pairKeyQE e = k).map ScoredQE.score) :=
        le_maxListQ _ _ this
    _ = c.score := hpred.symm

theorem dedupPairsQE_keys_sub (l : List ScoredQE) :
    ∀ (ks : List (ℚ × ℚ)), ∀ b ∈ (ks.filterMap (groupArgmax l)).map pairKeyQE, b ∈ ks := by
  intro ks b hb
  rcases List.mem_map.mp hb with ⟨c, hc, rfl⟩
  rcases List.mem_filterMap.mp hc with ⟨k, hk, hg⟩
  rw [(groupArgmax_spec l k c hg).2.1]
  exact hk

theorem dedupPairsQE_keys_nodup_aux (l : List ScoredQE) :
    ∀ (ks : List (ℚ × ℚ)), ks.Nodup → ((ks.filterMap (groupArgmax l)).map pairKeyQE).Nodup := by
  intro ks
  induction ks with
  | nil => intro _; simp
  | cons k ks ih =>
    intro hnd
    rw [List.nodup_cons] at hnd
    rw [List.filterMap_cons]
    cases hg : groupArgmax l k with
    | none => exact ih hnd.2
    | some c =>
      rw [List.map_cons, List.nodup_cons]
      refine ⟨?_, ih hnd.2⟩
      rw [(groupArgmax_spec l k c hg).2.1]
      intro hmem
      exact hnd.1 (dedupPairsQE_keys_sub l ks k hmem)

/-! ### C3 -/

/-- C3 (counterexample): the coverage (NIST) pair deduplication does NOT
keep the highest-scoring duplicate — on a candidate list whose first
occurrence of the unordered pair {100, 200} has score 1 and whose later
duplicate has score 5, it keeps the score-1 candidate. -/
theorem C3_dedup_counterexample :
    pairKeyN scoredNLow = pairKeyN scoredNHigh
      ∧ dedupPairsNIST [scoredNLow, scoredNHigh] = [scoredNLow]
      ∧ scoredNLow.score < scoredNHigh.score := by
  with_unfolding_all decide

/-- C3 (amended): in both variants at most one candidate survives per
unordered mass pair, but the variants' keep-rules are swapped relative
to the claim: the overlap (QE) variant keeps a highest-scoring duplicate
(the first such, via groupby idxmax), while the coverage (NIST) variant
keeps the first-seen candidate in the candidate list's existing
generation order, without any sorting by score. -/
theorem C3_dedup_amended (l : List ScoredN) (l2 : List ScoredQE) :
    ((dedupPairsNIST l).map pairKeyN).Nodup
      ∧ ((dedupPairsQE l2).map pairKeyQE).Nodup
      ∧ (∀ c ∈ dedupPairsNIST l,
          c ∈ l ∧ l.find? (fun d => decide (pairKeyN d = pairKeyN c)) = some c)
      ∧ (∀ c ∈ dedupPairsQE l2,
          c ∈ l2 ∧ ∀ d ∈ l2, pairKeyQE d = pairKeyQE c → d.score ≤ c.score) := by
  refine ⟨(dedupByKey_keys_fresh pairKeyN l []).1, ?_, ?_, ?_⟩
  · apply dedupPairsQE_keys_nodup_aux
    have h := dedupByKey_keys_fresh (id : ℚ × ℚ → ℚ × ℚ) (l2.map pairKeyQE) []
    simpa [pairKeysQE] using h.1
  · intro c hc
    exact ⟨dedupByKey_subset pairKeyN l [] c hc, (dedupByKey_find pairKeyN l [] c hc).2⟩
  · intro c hc
    rcases List.mem_filterMap.mp hc with ⟨k, _, hg⟩
    have hs := groupArgmax_spec l2 k c hg
    exact ⟨hs.1, hs.2.2⟩

/-- C3 (witness): the amended theorem applied at concrete two-element
candidate lists containing one duplicated unordered mass pair. -/
theorem C3_dedup_witness :
    scoredQEHigh ∈ dedupPairsQE [scoredQELow, scoredQEHigh]
      ∧ scoredQELow.score ≤ scoredQEHigh.score
      ∧ ([scoredNLow, scoredNHigh].find?
          (fun d => decide (pairKeyN d = pairKeyN scoredNLow)) = some scoredNLow) := by
  have h := C3_dedup_amended [scoredNLow, scoredNHigh] [scoredQELow, scoredQEHigh]
  have hmQE : scoredQEHigh ∈ dedupPairsQE [scoredQELow, scoredQEHigh] := by
    with_unfolding_all decide
  have hmN : scoredNLow ∈ dedupPairsNIST [scoredNLow, scoredNHigh] := by
    with_unfolding_all decide
  refine ⟨hmQE, ?_, (h.2.2.1 scoredNLow hmN).2⟩
  exact (h.2.2.2 scoredQEHigh hmQE).2 scoredQELow (by with_unfolding_all decide)
    (by with_unfolding_all decide)

theorem runBatch_cons_none (step : String → Option ρ) (k : String) (ks : List String)
    (h : step k = none) : runBatch step (k :: ks) = runBatch step ks := by
  simp [runBatch, h]

theorem runBatch_length (step : String → Option ρ) :
    ∀ keys : List String, (runBatch step keys).length = keys.countP fun k => (step k).isSome := by
  intro keys
  induction keys with
  | nil => rfl
  | cons k ks ih =>
    rw [List.countP_cons]
    cases h : step k with
    | none => simp [runBatch, h, ih]
    | some r => simp [runBatch, h, ih]

/-! ### C1 -/

/-- C1 (counterexample): in batch mode a key absent from the source
yields NO output row, so the output row count can be strictly below the
target-compound count — here 0 rows for 1 target. -/
theorem C1_row_count_counterexample :
    (runBatchNIST defaultConfig [] [] ["UNKNOWN-KEY"]).length
      ≠ (["UNKNOWN-KEY"] : List String).length := by
  with_unfolding_all decide

/-- C1 (amended): in batch mode the run loop appends a row only when a
compound's processing returns a result (key not found, no [M+H]+ data,
insufficient ions and raised exceptions all return nothing and are only
counted); the sentinel "no combination" row exists only on the NIST
no-valid-pairs path.  Hence the number of output rows equals the number
of target compounds whose processing returned a result, which is at most
— not always equal to — the number of targets. -/
theorem C1_row_count_amended (cfg : Config) (src : List (List SRec)) (intfN : List IRecN)
    (intfQ : List IRecQE) (keys : List String) :
    (runBatchNIST cfg src intfN keys).length
        = keys.countP (fun k => (processCompoundNIST cfg src intfN k).isSome)
      ∧ (runBatchQE cfg src intfQ keys).length
        = keys.countP (fun k => (processCompoundQE cfg src intfQ k).isSome)
      ∧ (runBatchNIST cfg src intfN keys).length ≤ keys.length
      ∧ (runBatchQE cfg src intfQ keys).length ≤ keys.length := by
  refine ⟨runBatch_length _ keys, runBatch_length _ keys, ?_, ?_⟩
  · show (runBatch _ keys).length ≤ keys.length
    rw [runBatch_length]; exact List.countP_le_length _
  · show (runBatch _ keys).length ≤ keys.length
    rw [runBatch_length]; exact List.countP_le_length _

/-! ### C4 -/

/-- C4 (counterexample): a compound left with fewer than 2 usable ions
after the precursor-proximity filter is skipped with NO result row at
all — not with a recorded "no combination" sentinel row. -/
theorem C4_insufficient_ions_counterexample :
    (usableIonsNIST defaultConfig [[nearPrecursorRow, nearPrecursorRow2]] "KB").length < 2
      ∧ processCompoundNIST defaultConfig [[nearPrecursorRow, nearPrecursorRow2]] [] "KB" = none
      ∧ runBatchNIST defaultConfig [[nearPrecursorRow, nearPrecursorRow2]] [] ["KB"] = [] := by
  with_unfolding_all decide

/-- C4 (amended): a compound left with fewer than 2 usable ions after
the precursor-proximity filter is skipped by returning no result — its
row is omitted and the failure only counted — in both method variants,
and the run over the remaining compounds continues.  (The "no
combination" sentinel row is produced only by the NIST path when pair
generation yields no candidates.) -/
theorem C4_insufficient_ions_amended (cfg : Config) (src : List (List SRec))
    (intfN : List IRecN) (intfQ : List IRecQE) (k : String) (ks : List String) :
    ((usableIonsNIST cfg src k).length < 2 → processCompoundNIST cfg src intfN k = none)
      ∧ ((usableIonsQE cfg src k).length < 2 → processCompoundQE cfg src intfQ k = none)
      ∧ (processCompoundNIST cfg src intfN k = none →
          runBatchNIST cfg src intfN (k :: ks) = runBatchNIST cfg src intfN ks)
      ∧ (processCompoundQE cfg src intfQ k = none →
          runBatchQE cfg src intfQ (k :: ks) = runBatchQE cfg src intfQ ks) := by
  refine ⟨?_, ?_, ?_, ?_⟩
  · intro h
    unfold usableIonsNIST at h
    unfold processCompoundNIST
    by_cases h0 : (queryByInchikey src k).length = 0
    · simp [h0]
    · simp only [h0, if_false]
      cases hf : (queryByInchikey src k).filter (fun r => r.precursorType = "[M+H]+") with
      | nil => simp
      | cons first rest =>
        rw [hf] at h
        simp only [h, if_true]
  · intro h
    unfold usableIonsQE usableIonsNIST at h
    unfold processCompoundQE
    by_cases h0 : (queryByInchikey src k).length = 0
    · simp [h0]
    · simp only [h0, if_false]
      cases hf : (queryByInchikey src k).filter (fun r => r.precursorType = "[M+H]+") with
      | nil => simp
      | cons first rest =>
        rw [hf] at h
        simp only [h, if_true]
  · intro h
    exact runBatch_cons_none _ _ _ h
  · intro h
    exact runBatch_cons_none _ _ _ h

/-- C4 (witness): the amended theorem applied at a concrete compound
with a single usable ion. -/
theorem C4_insufficient_ions_witness :
    processCompoundNIST defaultConfig [[nearPrecursorRow]] [] "KB" = none
      ∧ runBatchNIST defaultConfig [[nearPrecursorRow]] [] ["KB", "KB"]
          = runBatchNIST defaultConfig [[nearPrecursorRow]] [] ["KB"] := by
  have h := C4_insufficient_ions_amended defaultConfig [[nearPrecursorRow]] [] [] "KB" ["KB"]
  have h1 := h.1 (by with_unfolding_all decide)
  exact ⟨h1, h.2.2.1 h1⟩

/-! ### C7 -/

/-- C7: a query key absent from the index with no case-insensitive match
among the indexed keys returns an empty result set (the embedded
functions are total, so no exception can be raised). -/
theorem C7_absent_key_empty (src : List (List SRec)) (q : String)
    (h1 : q.trim ∉ keysOf (buildFileIndex src))
    (h2 : ∀ kk ∈ keysOf (buildFileIndex src), kk.trim.toLower ≠ q.trim.toLower) :
    queryByInchikey src q = [] := by
  unfold queryByInchikey
  have hc : containsKey (buildFileIndex src) q.trim = false :=
    containsKey_eq_false _ _ h1
  have hfind : (keysOf (buildFileIndex src)).find?
      (fun kk => kk.trim.toLower == q.trim.toLower) = none := by
    apply List.find?_eq_none.mpr
    intro kk hkk
    simpa using h2 kk hkk
  simp [resolveKey, hc, hfind]

/-- C7 (witness): concrete absent-key lookup returning the empty set. -/
theorem C7_absent_key_empty_witness :
    queryByInchikey [[plainKeyRow]] "ZZZZ" = [] :=
  C7_absent_key_empty [[plainKeyRow]] "ZZZZ" (by with_unfolding_all decide)
    (by with_unfolding_all decide)

/-! ### C10 -/

theorem extractLoop_eq_sum (cfg : Config) (t : ℚ) :
    ∀ (toks : List String) (acc : ℚ),
      extractLoop cfg t toks acc = acc + (toks.map (peakContribution cfg t)).sum := by
  intro toks
  induction toks with
  | nil => intro acc; simp [extractLoop]
  | cons tok rest ih =>
    intro acc
    rw [extractLoop, ih]
    simp [List.sum_cons]
    ring

/-- C10 (counterexample): the overlap-method intensity extraction is NOT
always non-negative — a well-formed peak with a negative encoded
intensity within tolerance of the target makes the result negative. -/
theorem C10_extract_counterexample :
    extractIntensityFromMsms defaultConfig (some "100.0:-5.0") 100 = -5
      ∧ ¬ (0 ≤ extractIntensityFromMsms defaultConfig (some "100.0:-5.0") 100) := by
  with_unfolding_all decide

/-- C10 (amended): the overlap-method spectrum intensity extraction is
total: a missing (NaN) or empty encoded peak list yields 0, the result
is the sum over whitespace-separated tokens of each token's
contribution, a token contributes 0 when it is malformed (no colon, or a
mass or intensity that fails to parse) and otherwise contributes its
parsed intensity exactly when its parsed mass is within the tolerance of
the target ion; the result is non-negative whenever every well-formed
token's parsed intensity is non-negative (but not unconditionally). -/
theorem C10_extract_amended (cfg : Config) (t : ℚ) (s : String) :
    extractIntensityFromMsms cfg none t = 0
      ∧ extractIntensityFromMsms cfg (some "") t = 0
      ∧ extractIntensityFromMsms cfg (some s) t
          = ((splitWhitespace s).map (peakContribution cfg t)).sum
      ∧ (∀ tok : String,
          (tok.contains ':' = false → peakContribution cfg t tok = 0)
          ∧ (parseDecimal (splitFirstColon tok).1 = none → peakContribution cfg t tok = 0)
          ∧ (parseDecimal (splitFirstColon tok).2 = none → peakContribution cfg t tok = 0)
          ∧ (∀ mz it : ℚ, parseDecimal (splitFirstColon tok).1 = some mz →
              parseDecimal (splitFirstColon tok).2 = some it →
              tok.contains ':' = true →
              peakContribution cfg t tok
                = if |mz - t| ≤ cfg.MSMS_TOLERANCE then it else 0))
      ∧ ((∀ tok ∈ splitWhitespace s, ∀ mz it : ℚ,
            parseDecimal (splitFirstColon tok).1 = some mz →
            parseDecimal (splitFirstColon tok).2 = some it → 0 ≤ it) →
          0 ≤ extractIntensityFromMsms cfg (some s) t) := by
  have hsum : extractIntensityFromMsms cfg (some s) t
      = ((splitWhitespace s).map (peakContribution cfg t)).sum := by
    unfold extractIntensityFromMsms
    by_cases hs : s = ""
    · subst hs
      have : splitWhitespace "" = [] := by with_unfolding_all rfl
      simp [this]
    · simp only [hs, if_false]
      rw [extractLoop_eq_sum]
      ring
  refine ⟨rfl, by with_unfolding_all rfl, hsum, ?_, ?_⟩
  · intro tok
    refine ⟨?_, ?_, ?_, ?_⟩
    · intro h; simp [peakContribution, h]
    · intro h
      unfold peakContribution
      split
      · rw [h]
      · rfl
    · intro h
      unfold peakContribution
      split
      · rw [h]; cases parseDecimal (splitFirstColon tok).1 <;> rfl
      · rfl
    · intro mz it h1 h2 hc
      unfold peakContribution
      rw [if_pos hc, h1, h2]
  · intro h
    rw [hsum]
    apply List.sum_nonneg
    intro x hx
    rcases List.mem_map.mp hx with ⟨tok, htok, rfl⟩
    unfold peakContribution
    split
    · rename_i hc
      cases h1 : parseDecimal (splitFirstColon tok).1 with
      | none => simp
      | some mz =>
        cases h2 : parseDecimal (splitFirstColon tok).2 with
        | none => simp
        | some it =>
          have hit := h tok htok mz it h1 h2
          simp only
          split
          · exact hit
          · exact le_refl 0
    · exact le_refl 0

/-- C10 (witness): the amended theorem applied to a concrete spectrum
with one in-tolerance peak, one out-of-tolerance peak and one malformed
token. -/
theorem C10_extract_witness :
    0 ≤ extractIntensityFromMsms defaultConfig (some "100.0:50.0 200.0:3 junk") 100 := by
  have h := C10_extract_amended defaultConfig 100 "100.0:50.0 200.0:3 junk"
  apply h.2.2.2.2
  intro tok htok mz it h1 h2
  have hl : splitWhitespace "100.0:50.0 200.0:3 junk" = ["100.0:50.0", "200.0:3", "junk"] := by
    with_unfolding_all rfl
  rw [hl] at htok
  fin_cases htok
  · have he : parseDecimal (splitFirstColon "100.0:50.0").2 = some 50 := by
      with_unfolding_all rfl
    rw [he] at h2
    injection h2 with h2'
    rw [← h2']
    norm_num
  · have he : parseDecimal (splitFirstColon "200.0:3").2 = some 3 := by
      with_unfolding_all rfl
    rw [he] at h2
    injection h2 with h2'
    rw [← h2']
    norm_num
  · have he : parseDecimal (splitFirstColon "junk").1 = none := by
      with_unfolding_all rfl
    rw [he] at h1
    cases h1

/-! ### C2 -/

/-- C2 (counterexample): the coverage-method hit rate is NOT the hit
count divided by the matching tier's distinct-key coverage.  Both ions
of this pair sit in the low-NCE tier, whose coverage is 1 and whose hit
count is 1 — the claimed rate would be 1/1 = 1 — but process_combination
divides by the overall coverage (coverage_all = 2 here) and returns
1/2. -/
theorem C2_hit_rate_counterexample :
    distinctCount ([intfRecA].map IRecN.inchikey) = 1
      ∧ distinctCount (([intfRecA] ++ [intfRecB] ++ []).map IRecN.inchikey) = 2
      ∧ c2Row.nce1 ≤ 60 ∧ c2Row.nce2 ≤ 60
      ∧ processCombination c2Row [intfRecA] [intfRecB] [] 1 1 0 2 = (1, 1/2)
      ∧ ((1 : ℚ)/2 ≠ (1 : ℚ)/1) := by
  with_unfolding_all decide

/-- C2 (amended): for every ion pair scored by the coverage (NIST)
method, the returned hit count is the number of distinct compound keys
in the union of the two ions' per-tier hit sets (records of the tier
matching each ion's NCE whose fragment mass is within 1 mass unit of the
ion), and the returned hit rate is that count divided by the OVERALL
distinct-key coverage across all tiers (the coverage_all argument; the
per-tier coverages are computed by the source but unused), with 0 when
that overall coverage is 0. -/
theorem C2_hit_rate_amended (row : CandN) (low med high : List IRecN)
    (covLow covMed covHigh covAll : ℕ) :
    (processCombination row low med high covLow covMed covHigh covAll).1
        = (hitKeys low med high row.msms1 row.nce1
            ∪ hitKeys low med high row.msms2 row.nce2).card
      ∧ (∀ (k : String) (ion nce : ℚ),
          k ∈ hitKeys low med high ion nce ↔
            ∃ r ∈ tierForNce low med high nce, |ion - r.msms| ≤ 1 ∧ r.inchikey = k)
      ∧ (processCombination row low med high covLow covMed covHigh covAll).2
          = if covAll = 0 then 0
            else ((processCombination row low med high covLow covMed covHigh covAll).1 : ℚ)
                  / (covAll : ℚ) := by
  refine ⟨rfl, ?_, ?_⟩
  · intro k ion nce
    unfold hitKeys processCeRange tierForNce
    by_cases h1 : nce ≤ 60
    · simp [h1, List.mem_filter]
      constructor
      · rintro ⟨r, ⟨hr, habs⟩, rfl⟩; exact ⟨r, hr, habs, rfl⟩
      · rintro ⟨r, hr, habs, rfl⟩; exact ⟨r, ⟨hr, habs⟩, rfl⟩
    · by_cases h2 : nce ≤ 120
      · have h60 : 60 < nce := lt_of_not_le h1
        simp [h1, h60, h2, List.mem_filter]
        constructor
        · rintro ⟨r, ⟨hr, habs⟩, rfl⟩; exact ⟨r, hr, habs, rfl⟩
        · rintro ⟨r, hr, habs, rfl⟩; exact ⟨r, ⟨hr, habs⟩, rfl⟩
      · have h120 : 120 < nce := lt_of_not_le h2
        simp [h1, h2, h120, List.mem_filter]
        constructor
        · rintro ⟨r, ⟨hr, habs⟩, rfl⟩; exact ⟨r, hr, habs, rfl⟩
        · rintro ⟨r, hr, habs, rfl⟩; exact ⟨r, ⟨hr, habs⟩, rfl⟩
  · unfold processCombination
    by_cases h : covAll = 0
    · simp [h]
    · simp [h]

/-- C2 (witness): the amended characterization applied at the concrete
pair: compound "A" is a hit of ion 1 in the low tier. -/
theorem C2_hit_rate_witness :
    "A" ∈ hitKeys [intfRecA] [intfRecB] [] c2Row.msms1 c2Row.nce1 := by
  have h := (C2_hit_rate_amended c2Row [intfRecA] [intfRecB] [] 1 1 0 2).2.1
    "A" c2Row.msms1 c2Row.nce1
  apply h.mpr
  refine ⟨intfRecA, ?_, ?_, ?_⟩
  · with_unfolding_all decide
  · with_unfolding_all decide
  · rfl

/-! ### C5 supporting lemmas: everything pair generation consumes is a
sublist of the precursor-filtered working group -/

theorem mem_insertByDesc (f : α → ℚ) (c a : α) :
    ∀ l : List α, a ∈ insertByDesc f c l ↔ a = c ∨ a ∈ l := by
  intro l
  induction l with
  | nil => simp [insertByDesc]
  | cons d ds ih =>
    unfold insertByDesc
    split
    · simp
    · rw [List.mem_cons, ih, List.mem_cons]
      tauto

theorem mem_sortByDesc (f : α → ℚ) (a : α) :
    ∀ l : List α, a ∈ sortByDesc f l ↔ a ∈ l := by
  intro l
  induction l with
  | nil => simp [sortByDesc]
  | cons x xs ih =>
    show a ∈ insertByDesc f x (sortByDesc f xs) ↔ _
    rw [mem_insertByDesc, ih, List.mem_cons]

theorem dedupTol_subset : ∀ (l : List SRec) (used : List ℚ) (a : SRec),
    a ∈ dedupTol l used → a ∈ l := by
  intro l
  induction l with
  | nil => intro used a h; cases h
  | cons r rs ih =>
    intro used a h
    unfold dedupTol at h
    split at h
    · exact List.mem_cons_of_mem _ (ih _ a h)
    · rcases List.mem_cons.mp h with rfl | h'
      · exact List.mem_cons_self _ _
      · exact List.mem_cons_of_mem _ (ih _ a h')

theorem allPairs_mem : ∀ (l : List α) (a b : α), (a, b) ∈ allPairs l → a ∈ l ∧ b ∈ l := by
  intro l
  induction l with
  | nil => intro a b h; cases h
  | cons x xs ih =>
    intro a b h
    rcases List.mem_append.mp h with h' | h'
    · rcases List.mem_map.mp h' with ⟨y, hy, he⟩
      cases he
      exact ⟨List.mem_cons_self _ _, List.mem_cons_of_mem _ hy⟩
    · obtain ⟨ha, hb⟩ := ih a b h'
      exact ⟨List.mem_cons_of_mem _ ha, List.mem_cons_of_mem _ hb⟩

theorem rankTier_subset (k : ℕ) (l : List SRec) : ∀ a ∈ rankTier k l, a ∈ l := by
  intro a ha
  have h1 := List.take_subset _ _ ha
  have h2 := dedupByKey_subset (fun r => (r.name, r.msms)) _ [] a h1
  exact (mem_sortByDesc SRec.intensity a _).mp h2

theorem filterAndRankIonsNIST_subset (wg : List SRec) :
    ∀ a ∈ filterAndRankIonsNIST wg, a ∈ wg := by
  intro a ha
  rcases List.mem_append.mp ha with h | h
  · rcases List.mem_append.mp h with h' | h'
    · exact (List.mem_filter.mp (rankTier_subset _ _ a h')).1
    · exact (List.mem_filter.mp (rankTier_subset _ _ a h')).1
  · exact (List.mem_filter.mp (rankTier_subset _ _ a h)).1

theorem filterAndRankIonsQE_subset (cfg : Config) (wg : List SRec) :
    ∀ a ∈ filterAndRankIonsQE cfg wg, a ∈ wg := by
  intro a ha
  rcases List.mem_append.mp ha with h | h
  · rcases List.mem_append.mp h with h' | h'
    · exact (List.mem_filter.mp (rankTier_subset _ _ a h')).1
    · exact (List.mem_filter.mp (rankTier_subset _ _ a h')).1
  · exact (List.mem_filter.mp (rankTier_subset _ _ a h)).1

theorem mem_precursorProximityFilter (cfg : Config) (l : List SRec) (pre : ℚ) (r : SRec)
    (h : r ∈ precursorProximityFilter cfg l pre) :
    r ∈ l ∧ cfg.PRECURSOR_MZ_MIN_DIFF < |r.msms - pre| := by
  have := List.mem_filter.mp h
  exact ⟨this.1, by simpa using this.2⟩

/-! ### C5 -/

/-- C5: every ion pair either variant generates from the
precursor-filtered working group has fragment masses at least the
minimum separation apart (the literal 2.0 for NIST, ION_PAIR_MIN_DIFF
for QE) and both masses strictly more than PRECURSOR_MZ_MIN_DIFF from
the precursor mass; at the default configuration the separation is 2.0
and the precursor distance 14.0126. -/
theorem C5_pair_separation (cfg : Config) (wg : List SRec) (pre : ℚ) :
    (∀ p ∈ generateIonPairsNIST (filterAndRankIonsNIST (precursorProximityFilter cfg wg pre)),
        2 ≤ |p.msms1 - p.msms2|
        ∧ cfg.PRECURSOR_MZ_MIN_DIFF < |p.msms1 - pre|
        ∧ cfg.PRECURSOR_MZ_MIN_DIFF < |p.msms2 - pre|)
      ∧ (∀ q ∈ generateIonPairsQE cfg (filterAndRankIonsQE cfg (precursorProximityFilter cfg wg pre)),
          cfg.ION_PAIR_MIN_DIFF ≤ |q.msms1 - q.msms2|
          ∧ cfg.PRECURSOR_MZ_MIN_DIFF < |q.msms1 - pre|
          ∧ cfg.PRECURSOR_MZ_MIN_DIFF < |q.msms2 - pre|)
      ∧ defaultConfig.ION_PAIR_MIN_DIFF = 2
      ∧ defaultConfig.PRECURSOR_MZ_MIN_DIFF = 140126/10000 := by
  refine ⟨?_, ?_, rfl, rfl⟩
  · intro p hp
    unfold generateIonPairsNIST at hp
    split at hp
    · cases hp
    · simp only [] at hp
      split at hp
      · cases hp
      · rcases List.mem_filterMap.mp hp with ⟨⟨r1, r2⟩, hpair, hsome⟩
        split at hsome
        · rename_i hcond
          obtain rfl : mkCandN r1 r2 = p := Option.some.inj hsome
          obtain ⟨h1, h2⟩ := allPairs_mem _ r1 r2 hpair
          have hr1 := dedupTol_subset _ [] r1 h1
          have hr2 := dedupTol_subset _ [] r2 h2
          rw [mem_sortByDesc] at hr1 hr2
          have hw1 := mem_precursorProximityFilter cfg wg pre r1
            (filterAndRankIonsNIST_subset _ r1 hr1)
          have hw2 := mem_precursorProximityFilter cfg wg pre r2
            (filterAndRankIonsNIST_subset _ r2 hr2)
          exact ⟨hcond.2, hw1.2, hw2.2⟩
        · cases hsome
  · intro q hq
    unfold generateIonPairsQE at hq
    split at hq
    · cases hq
    · rcases List.mem_filterMap.mp hq with ⟨⟨r1, r2⟩, hpair, hsome⟩
      split at hsome
      · rename_i hcond
        obtain rfl : mkCandQE r1 r2 = q := Option.some.inj hsome
        obtain ⟨h1, h2⟩ := allPairs_mem _ r1 r2 hpair
        have hw1 := mem_precursorProximityFilter cfg wg pre r1
          (filterAndRankIonsQE_subset cfg _ r1 h1)
        have hw2 := mem_precursorProximityFilter cfg wg pre r2
          (filterAndRankIonsQE_subset cfg _ r2 h2)
        exact ⟨hcond.2, hw1.2, hw2.2⟩
      · cases hsome

set_option maxRecDepth 100000 in
/-- C5 (witness): the invariant instantiated at a concrete two-ion
working group whose generated NIST pair is (100, 150) with precursor
300. -/
theorem C5_pair_separation_witness :
    2 ≤ |(mkCandN c5Rec1 c5Rec2).msms1 - (mkCandN c5Rec1 c5Rec2).msms2|
      ∧ defaultConfig.PRECURSOR_MZ_MIN_DIFF < |(mkCandN c5Rec1 c5Rec2).msms1 - 300|
      ∧ defaultConfig.PRECURSOR_MZ_MIN_DIFF < |(mkCandN c5Rec1 c5Rec2).msms2 - 300| :=
  (C5_pair_separation defaultConfig [c5Rec1, c5Rec2] 300).1 (mkCandN c5Rec1 c5Rec2)
    (by with_unfolding_all decide)

/-! ### C8 -/

/-- C8: QE scoring.  When either column maximum used as a normalization
denominator is zero, every candidate's sensitivity sub-score and overall
score fall back to its raw combined intensity; when both maxima are
positive, sensitivity = intensity_sum / max, specificity =
-(1+Σinterference)/(1+max Σinterference) and score =
sensitivity*W_sens + specificity*W_spec; and for the physically
meaningful non-negative maxima these two cases are exhaustive. -/
theorem C8_qe_score_fallback (cfg : Config) (cands : List CandQE) (low med high : List IRecQE) :
    ((qeMaxIntensity cands = 0 ∨ qeMaxInterference cfg cands low med high = 0) →
        ∀ s ∈ calculateScoresQE cfg cands low med high,
          s.sensitivityScore = s.intensitySum ∧ s.score = s.intensitySum)
      ∧ ((0 < qeMaxIntensity cands ∧ 0 < qeMaxInterference cfg cands low med high) →
          ∀ s ∈ calculateScoresQE cfg cands low med high,
            s.sensitivityScore = s.intensitySum / qeMaxIntensity cands
            ∧ s.specificityScore
                = -(1 + s.interferenceLevelSum)
                    / (1 + qeMaxInterference cfg cands low med high)
            ∧ s.score = s.sensitivityScore * cfg.SENSITIVITY_WEIGHT
                          + s.specificityScore * cfg.SPECIFICITY_WEIGHT)
      ∧ (0 ≤ qeMaxIntensity cands → 0 ≤ qeMaxInterference cfg cands low med high →
          (qeMaxIntensity cands = 0 ∨ qeMaxInterference cfg cands low med high = 0)
            ∨ (0 < qeMaxIntensity cands ∧ 0 < qeMaxInterference cfg cands low med high)) := by
  refine ⟨?_, ?_, ?_⟩
  · intro h s hs
    rcases List.mem_map.mp hs with ⟨c, _, rfl⟩
    have hneg : ¬ (0 < qeMaxIntensity cands
        ∧ 0 < qeMaxInterference cfg cands low med high) := by
      rcases h with h | h
      · intro hcon; rw [h] at hcon; exact lt_irrefl 0 hcon.1
      · intro hcon; rw [h] at hcon; exact lt_irrefl 0 hcon.2
    simp only [scoreOneQE]
    rw [if_neg hneg]
    exact ⟨rfl, rfl⟩
  · intro h s hs
    rcases List.mem_map.mp hs with ⟨c, _, rfl⟩
    simp only [scoreOneQE]
    rw [if_pos h]
    exact ⟨rfl, rfl, rfl⟩
  · intro h1 h2
    rcases eq_or_lt_of_le h1 with h1' | h1'
    · exact Or.inl (Or.inl h1'.symm)
    · rcases eq_or_lt_of_le h2 with h2' | h2'
      · exact Or.inl (Or.inr h2'.symm)
      · exact Or.inr ⟨h1', h2'⟩

/-- C8 (witness): the fallback branch at a concrete single-candidate
list with empty interference data (both maxima are 0). -/
theorem C8_qe_score_fallback_witness :
    ∀ s ∈ calculateScoresQE defaultConfig [⟨100, 0, 10, 150, 0, 20⟩] [] [] [],
      s.sensitivityScore = s.intensitySum ∧ s.score = s.intensitySum :=
  (C8_qe_score_fallback defaultConfig [⟨100, 0, 10, 150, 0, 20⟩] [] [] []).1
    (Or.inl (by with_unfolding_all rfl))

/-! ### C9 supporting lemmas -/

theorem mem_set_self (l : List ℚ) (i : ℕ) (hi : i < l.length) (x' : ℚ) :
    x' ∈ l.set i x' := by
  have hlen : i < (l.set i x').length := by simpa using hi
  have h : (l.set i x').get ⟨i, hlen⟩ = x' := by
    simpa using List.getElem_set_self hlen
  exact List.mem_iff_get.mpr ⟨⟨i, hlen⟩, h⟩

theorem set_ne_nil (l : List ℚ) (i : ℕ) (hi : i < l.length) (x' : ℚ) :
    l.set i x' ≠ [] := by
  intro h
  have := congrArg List.length h
  simp at this
  rw [this] at hi
  exact Nat.not_lt_zero i hi

theorem maxListQ_le_set (l : List ℚ) (i : ℕ) (hi : i < l.length) (x' : ℚ)
    (hx : l.get ⟨i, hi⟩ ≤ x') : maxListQ l ≤ maxListQ (l.set i x') := by
  have hne : l ≠ [] := List.ne_nil_of_length_pos (Nat.lt_of_le_of_lt (Nat.zero_le i) hi)
  apply maxListQ_le _ _ hne
  intro a ha
  rcases List.mem_iff_get.mp ha with ⟨⟨j, hj⟩, rfl⟩
  by_cases hij : j = i
  · subst hij
    exact le_trans hx (le_maxListQ _ _ (mem_set_self l j hj x'))
  · have hlen : j < (l.set i x').length := by simpa using hj
    have hgj : (l.set i x').get ⟨j, hlen⟩ = l.get ⟨j, hj⟩ := by
      simp only [List.get_eq_getElem]
      exact List.getElem_set_ne (fun h => hij h.symm) _
    rw [← hgj]
    exact le_maxListQ _ _ (List.get_mem _ _ _)

theorem maxListQ_set_le_max (l : List ℚ) (i : ℕ) (hi : i < l.length) (x' : ℚ) :
    maxListQ (l.set i x') ≤ max (maxListQ l) x' := by
  apply maxListQ_le _ _ (set_ne_nil l i hi x')
  intro a ha
  rcases List.mem_or_eq_of_mem_set ha with h | rfl
  · exact le_trans (le_maxListQ _ _ h) (le_max_left _ _)
  · exact le_max_right _ _

theorem div_maxListQ_mono (l : List ℚ) (i : ℕ) (hi : i < l.length) (x' : ℚ)
    (hx : l.get ⟨i, hi⟩ ≤ x') (hm : 0 < maxListQ l) :
    l.get ⟨i, hi⟩ / maxListQ l ≤ x' / maxListQ (l.set i x') := by
  have hmm' := maxListQ_le_set l i hi x' hx
  have hx'm : x' ≤ maxListQ (l.set i x') := le_maxListQ _ _ (mem_set_self l i hi x')
  have hxm : l.get ⟨i, hi⟩ ≤ maxListQ l := le_maxListQ _ _ (List.get_mem _ _ _)
  by_cases hxle : x' ≤ maxListQ l
  · have heq : maxListQ (l.set i x') = maxListQ l :=
      le_antisymm (le_trans (maxListQ_set_le_max l i hi x') (max_le (le_refl _) hxle)) hmm'
    rw [heq]
    exact (div_le_div_right hm).mpr hx
  · push_neg at hxle
    have heq : maxListQ (l.set i x') = x' :=
      le_antisymm (le_trans (maxListQ_set_le_max l i hi x')
        (max_le (le_of_lt hxle) (le_refl _))) hx'm
    rw [heq, div_self (ne_of_gt (lt_trans hm hxle))]
    exact (div_le_one hm).mpr hxm

theorem maxListQ_set_eq_of_nonpos (l : List ℚ) (i : ℕ) (hi : i < l.length) (x' : ℚ)
    (hm0 : maxListQ l ≤ 0) (hm' : 0 < maxListQ (l.set i x')) :
    maxListQ (l.set i x') = x' := by
  have hx'm : x' ≤ maxListQ (l.set i x') := le_maxListQ _ _ (mem_set_self l i hi x')
  by_cases hmx : maxListQ l ≤ x'
  · refine le_antisymm ?_ hx'm
    calc maxListQ (l.set i x') ≤ max (maxListQ l) x' := maxListQ_set_le_max l i hi x'
      _ = x' := max_eq_right hmx
  · push_neg at hmx
    exfalso
    have : maxListQ (l.set i x') ≤ maxListQ l := by
      calc maxListQ (l.set i x') ≤ max (maxListQ l) x' := maxListQ_set_le_max l i hi x'
        _ = maxListQ l := max_eq_left (le_of_lt hmx)
    exact absurd (lt_of_lt_of_le hm' this) (not_lt.mpr hm0)

theorem nistSens_monotone (l : List ℚ) (i : ℕ) (hi : i < l.length) (x' : ℚ)
    (hx : l.get ⟨i, hi⟩ ≤ x') :
    nistSens (maxListQ l) (l.get ⟨i, hi⟩) ≤ nistSens (maxListQ (l.set i x')) x' := by
  unfold nistSens
  by_cases hm' : 0 < maxListQ (l.set i x')
  · rw [if_pos hm']
    by_cases hm : 0 < maxListQ l
    · rw [if_pos hm]
      exact div_maxListQ_mono l i hi x' hx hm
    · rw [if_neg hm]
      have heq := maxListQ_set_eq_of_nonpos l i hi x' (not_lt.mp hm) hm'
      rw [heq, div_self (ne_of_gt (heq ▸ hm'))]
      norm_num
  · rw [if_neg hm', if_neg (fun hm => hm' (lt_of_lt_of_le hm (maxListQ_le_set l i hi x' hx)))]

theorem qeSensCore_monotone (l : List ℚ) (mF : ℚ) (i : ℕ) (hi : i < l.length) (x' : ℚ)
    (hx : l.get ⟨i, hi⟩ ≤ x') :
    (if 0 < maxListQ l ∧ 0 < mF then l.get ⟨i, hi⟩ / maxListQ l else l.get ⟨i, hi⟩)
      ≤ (if 0 < maxListQ (l.set i x') ∧ 0 < mF then x' / maxListQ (l.set i x') else x') := by
  by_cases hf : 0 < mF
  · by_cases hm : 0 < maxListQ l
    · rw [if_pos ⟨hm, hf⟩]
      have hm' : 0 < maxListQ (l.set i x') := lt_of_lt_of_le hm (maxListQ_le_set l i hi x' hx)
      rw [if_pos ⟨hm', hf⟩]
      exact div_maxListQ_mono l i hi x' hx hm
    · rw [if_neg fun hc => hm hc.1]
      by_cases hm' : 0 < maxListQ (l.set i x')
      · rw [if_pos ⟨hm', hf⟩]
        have heq := maxListQ_set_eq_of_nonpos l i hi x' (not_lt.mp hm) hm'
        rw [heq, div_self (ne_of_gt (heq ▸ hm'))]
        exact le_trans (le_trans (le_maxListQ _ _ (List.get_mem _ _ _)) (not_lt.mp hm))
          zero_le_one
      · rw [if_neg fun hc => hm' hc.1]
        exact hx
  · rw [if_neg fun hc => hf hc.2, if_neg fun hc => hf hc.2]
    exact hx

theorem scoreOneNIST_sens (cfg : Config) (maxSum : ℚ) (maxHit : ℕ) (low med high : List IRecN)
    (covLow covMed covHigh covAll : ℕ) (c : CandN) :
    (scoreOneNIST cfg maxSum maxHit low med high covLow covMed covHigh covAll c).sensitivityScore
      = nistSens maxSum (intensitySumN c) := rfl

theorem scoreOneQE_sens (cfg : Config) (maxI maxF : ℚ) (low med high : List IRecQE) (c : CandQE) :
    (scoreOneQE cfg maxI maxF low med high c).sensitivityScore
      = if 0 < maxI ∧ 0 < maxF then intensitySumQE c / maxI else intensitySumQE c := by
  unfold scoreOneQE
  split <;> rfl

theorem nistSensitivityAt_eq (cfg : Config) (cands : List CandN) (low med high : List IRecN)
    (covLow covMed covHigh covAll : ℕ) (i : ℕ) (hi : i < cands.length) :
    nistSensitivityAt cfg cands low med high covLow covMed covHigh covAll i
      = nistSens (nistMaxIntensity cands) (intensitySumN (cands.get ⟨i, hi⟩)) := by
  unfold nistSensitivityAt calculateScoresNIST
  rw [List.map_map, List.getD_eq_getElem?_getD, List.getElem?_map,
    List.getElem?_eq_getElem hi]
  rfl

theorem qeSensitivityAt_eq (cfg : Config) (cands : List CandQE) (low med high : List IRecQE)
    (i : ℕ) (hi : i < cands.length) :
    qeSensitivityAt cfg cands low med high i
      = if 0 < qeMaxIntensity cands ∧ 0 < qeMaxInterference cfg cands low med high
        then intensitySumQE (cands.get ⟨i, hi⟩) / qeMaxIntensity cands
        else intensitySumQE (cands.get ⟨i, hi⟩) := by
  unfold qeSensitivityAt calculateScoresQE
  rw [List.map_map, List.getD_eq_getElem?_getD, List.getElem?_map,
    List.getElem?_eq_getElem hi]
  simp only [Option.map_some, Option.map_some', Option.getD_some, Function.comp_apply]
  rw [scoreOneQE_sens]
  rfl

/-! ### C9 -/

/-- C9: in both method variants, raising a candidate's combined
intensity (its two channel intensities; all mass/CE/NCE fields and hence
every interference quantity held fixed, and all other candidates
unchanged) never decreases that candidate's sensitivity sub-score. -/
theorem C9_sensitivity_monotone (cfg : Config)
    (low med high : List IRecN) (covLow covMed covHigh covAll : ℕ)
    (lowQ medQ highQ : List IRecQE)
    (cands : List CandN) (candsQ : List CandQE) (i : ℕ)
    (hiN : i < cands.length) (hiQ : i < candsQ.length) (v1 v2 w1 w2 : ℚ)
    (hN : intensitySumN (cands.get ⟨i, hiN⟩) ≤ v1 + v2)
    (hQ : intensitySumQE (candsQ.get ⟨i, hiQ⟩) ≤ w1 + w2) :
    nistSensitivityAt cfg cands low med high covLow covMed covHigh covAll i
        ≤ nistSensitivityAt cfg
            (cands.set i { cands.get ⟨i, hiN⟩ with intensity1 := v1, intensity2 := v2 })
            low med high covLow covMed covHigh covAll i
      ∧ qeSensitivityAt cfg candsQ lowQ medQ highQ i
        ≤ qeSensitivityAt cfg
            (candsQ.set i { candsQ.get ⟨i, hiQ⟩ with intensity1 := w1, intensity2 := w2 })
            lowQ medQ highQ i := by
  constructor
  · set c' : CandN := { cands.get ⟨i, hiN⟩ with intensity1 := v1, intensity2 := v2 } with hc'
    have hi' : i < (cands.set i c').length := by simpa using hiN
    rw [nistSensitivityAt_eq cfg cands low med high covLow covMed covHigh covAll i hiN,
      nistSensitivityAt_eq cfg _ low med high covLow covMed covHigh covAll i hi']
    have hget : (cands.set i c').get ⟨i, hi'⟩ = c' := by
      simpa using List.getElem_set_self hi'
    rw [hget]
    unfold nistMaxIntensity
    have hmap : (cands.set i c').map intensitySumN
        = (cands.map intensitySumN).set i (v1 + v2) := by
      rw [List.map_set]
      rfl
    rw [hmap]
    have hil : i < (cands.map intensitySumN).length := by simpa using hiN
    have hgl : (cands.map intensitySumN).get ⟨i, hil⟩ = intensitySumN (cands.get ⟨i, hiN⟩) := by
      simp
    rw [← hgl] at hN ⊢
    exact nistSens_monotone (cands.map intensitySumN) i hil (v1 + v2) hN
  · set c' : CandQE := { candsQ.get ⟨i, hiQ⟩ with intensity1 := w1, intensity2 := w2 } with hc'
    have hi' : i < (candsQ.set i c').length := by simpa using hiQ
    rw [qeSensitivityAt_eq cfg candsQ lowQ medQ highQ i hiQ,
      qeSensitivityAt_eq cfg _ lowQ medQ highQ i hi']
    have hget : (candsQ.set i c').get ⟨i, hi'⟩ = c' := by
      simpa using List.getElem_set_self hi'
    rw [hget]
    have hintf : qeMaxInterference cfg (candsQ.set i c') lowQ medQ highQ
        = qeMaxInterference cfg candsQ lowQ medQ highQ := by
      unfold qeMaxInterference
      have h1 : (candsQ.set i c').map (qeIntfSum cfg lowQ medQ highQ)
          = (candsQ.map (qeIntfSum cfg lowQ medQ highQ)).set i
              (qeIntfSum cfg lowQ medQ highQ (candsQ.get ⟨i, hiQ⟩)) := by
        rw [List.map_set]
        rfl
      have hil : i < (candsQ.map (qeIntfSum cfg lowQ medQ highQ)).length := by simpa using hiQ
      have h2 : (candsQ.map (qeIntfSum cfg lowQ medQ highQ)).get ⟨i, hil⟩
          = qeIntfSum cfg lowQ medQ highQ (candsQ.get ⟨i, hiQ⟩) := by simp
      rw [h1, ← h2]
      congr 1
      exact set_get_self _ i hil
    rw [hintf]
    unfold qeMaxIntensity
    have hmap : (candsQ.set i c').map intensitySumQE
        = (candsQ.map intensitySumQE).set i (w1 + w2) := by
      rw [List.map_set]
      rfl
    rw [hmap]
    have hil : i < (candsQ.map intensitySumQE).length := by simpa using hiQ
    have hgl : (candsQ.map intensitySumQE).get ⟨i, hil⟩
        = intensitySumQE (candsQ.get ⟨i, hiQ⟩) := by simp
    rw [← hgl] at hQ ⊢
    exact qeSensCore_monotone (candsQ.map intensitySumQE) _ i hil (w1 + w2) hQ

/-- C9 (witness): the monotonicity theorem applied at a concrete
two-candidate list, raising the first candidate's combined intensity
from 2 to 9. -/
theorem C9_sensitivity_monotone_witness :
    nistSensitivityAt defaultConfig [c9CandA, c9CandB] [] [] [] 0 0 0 0 0
        ≤ nistSensitivityAt defaultConfig
            ([c9CandA, c9CandB].set 0
              { [c9CandA, c9CandB].get ⟨0, by decide⟩ with intensity1 := 9, intensity2 := 0 })
            [] [] [] 0 0 0 0 0
      ∧ qeSensitivityAt defaultConfig [c9QEA, c9QEB] [] [] [] 0
        ≤ qeSensitivityAt defaultConfig
            ([c9QEA, c9QEB].set 0
              { [c9QEA, c9QEB].get ⟨0, by decide⟩ with intensity1 := 9, intensity2 := 0 })
            [] [] [] 0 :=
  C9_sensitivity_monotone defaultConfig [] [] [] 0 0 0 0 [] [] []
    [c9CandA, c9CandB] [c9QEA, c9QEB] 0 (by decide) (by decide) 9 0 9 0
    (by with_unfolding_all decide) (by with_unfolding_all decide)

/-! ### C6 supporting lemmas: what the index build registers -/

theorem mem_filesOf_insertFile_self (k : String) (fi : ℕ) :
    ∀ idx : List (String × List ℕ), fi ∈ filesOf (insertFile idx k fi) k := by
  intro idx
  induction idx with
  | nil =>
    show fi ∈ filesOf [(k, [fi])] k
    unfold filesOf
    rw [if_pos rfl]
    exact List.mem_singleton.mpr rfl
  | cons e rest ih =>
    obtain ⟨ke, fs⟩ := e
    unfold insertFile
    by_cases hk : ke = k
    · rw [if_pos hk]
      show fi ∈ filesOf ((ke, if fi ∈ fs then fs else fs ++ [fi]) :: rest) k
      unfold filesOf
      rw [if_pos hk]
      by_cases hmem : fi ∈ fs
      · rw [if_pos hmem]; exact hmem
      · rw [if_neg hmem]; exact List.mem_append.mpr (Or.inr (List.mem_singleton.mpr rfl))
    · rw [if_neg hk]
      show fi ∈ filesOf ((ke, fs) :: insertFile rest k fi) k
      unfold filesOf
      rw [if_neg hk]
      exact ih

theorem mem_filesOf_insertFile_mono (k k' : String) (fi fj : ℕ) :
    ∀ idx : List (String × List ℕ),
      fj ∈ filesOf idx k' → fj ∈ filesOf (insertFile idx k fi) k' := by
  intro idx
  induction idx with
  | nil => intro h; cases h
  | cons e rest ih =>
    obtain ⟨ke, fs⟩ := e
    intro h
    unfold insertFile
    by_cases hk : ke = k
    · rw [if_pos hk]
      show fj ∈ filesOf ((ke, if fi ∈ fs then fs else fs ++ [fi]) :: rest) k'
      unfold filesOf at h ⊢
      by_cases hk' : ke = k'
      · rw [if_pos hk'] at h
        rw [if_pos hk']
        by_cases hmem : fi ∈ fs
        · rw [if_pos hmem]; exact h
        · rw [if_neg hmem]; exact List.mem_append.mpr (Or.inl h)
      · rw [if_neg hk'] at h
        rw [if_neg hk']
        exact h
    · rw [if_neg hk]
      show fj ∈ filesOf ((ke, fs) :: insertFile rest k fi) k'
      unfold filesOf at h ⊢
      by_cases hk' : ke = k'
      · rw [if_pos hk'] at h; rw [if_pos hk']; exact h
      · rw [if_neg hk'] at h; rw [if_neg hk']; exact ih h

theorem mem_filesOf_insertIf_mono (c : Bool) (k k' : String) (fi fj : ℕ)
    (idx : List (String × List ℕ)) (h : fj ∈ filesOf idx k') :
    fj ∈ filesOf (insertIf c idx k fi) k' := by
  unfold insertIf
  split
  · exact mem_filesOf_insertFile_mono k k' fi fj idx h
  · exact h

theorem mem_filesOf_insertIf_self (k : String) (fi : ℕ) (idx : List (String × List ℕ)) :
    fi ∈ filesOf (insertIf true idx k fi) k := by
  unfold insertIf
  rw [if_pos rfl]
  exact mem_filesOf_insertFile_self k fi idx

theorem mem_filesOf_indexRow_mono (fi fj : ℕ) (k' : String) (idx : List (String × List ℕ))
    (r : SRec) (h : fj ∈ filesOf idx k') : fj ∈ filesOf (indexRow fi idx r) k' := by
  unfold indexRow
  exact mem_filesOf_insertIf_mono _ _ _ _ _ _
    (mem_filesOf_insertIf_mono _ _ _ _ _ _ (mem_filesOf_insertIf_mono _ _ _ _ _ _ h))

theorem mem_filesOf_indexRow_self (fi : ℕ) (idx : List (String × List ℕ)) (r : SRec)
    (hv : validKey (r.inchikey.trim) = true) :
    fi ∈ filesOf (indexRow fi idx r) (r.inchikey.trim) := by
  unfold indexRow
  apply mem_filesOf_insertIf_mono
  apply mem_filesOf_insertIf_mono
  rw [hv]
  exact mem_filesOf_insertIf_self _ _ _

theorem mem_filesOf_indexFile_mono (fi fj : ℕ) (k' : String) :
    ∀ (rows : List SRec) (idx : List (String × List ℕ)),
      fj ∈ filesOf idx k' → fj ∈ filesOf (indexFile fi idx rows) k' := by
  intro rows
  induction rows with
  | nil => intro idx h; exact h
  | cons r rs ih =>
    intro idx h
    exact ih _ (mem_filesOf_indexRow_mono fi fj k' idx r h)

theorem mem_filesOf_indexFile_self (fi : ℕ) :
    ∀ (rows : List SRec) (idx : List (String × List ℕ)) (r : SRec), r ∈ rows →
      validKey (r.inchikey.trim) = true →
      fi ∈ filesOf (indexFile fi idx rows) (r.inchikey.trim) := by
  intro rows
  induction rows with
  | nil => intro idx r h; cases h
  | cons x xs ih =>
    intro idx r hr hv
    rcases List.mem_cons.mp hr with rfl | hr'
    · exact mem_filesOf_indexFile_mono fi fi _ xs _ (mem_filesOf_indexRow_self fi idx r hv)
    · exact ih _ r hr' hv

theorem mem_filesOf_buildAux_mono (fj : ℕ) (k' : String) :
    ∀ (src : List (List SRec)) (idx : List (String × List ℕ)) (fi0 : ℕ),
      fj ∈ filesOf idx k' → fj ∈ filesOf (buildFileIndexAux idx fi0 src) k' := by
  intro src
  induction src with
  | nil => intro idx fi0 h; exact h
  | cons f fs ih =>
    intro idx fi0 h
    exact ih _ _ (mem_filesOf_indexFile_mono fi0 fj k' f idx h)

theorem mem_filesOf_buildAux_self :
    ∀ (src : List (List SRec)) (idx : List (String × List ℕ)) (fi0 j : ℕ)
      (file : List SRec) (r : SRec), src.get? j = some file → r ∈ file →
      validKey (r.inchikey.trim) = true →
      (fi0 + j) ∈ filesOf (buildFileIndexAux idx fi0 src) (r.inchikey.trim) := by
  intro src
  induction src with
  | nil => intro idx fi0 j file r h; cases h
  | cons f fs ih =>
    intro idx fi0 j file r hget hr hv
    cases j with
    | zero =>
      obtain rfl : f = file := Option.some.inj hget
      rw [Nat.add_zero]
      exact mem_filesOf_buildAux_mono _ _ fs _ _ (mem_filesOf_indexFile_self fi0 f idx r hr hv)
    | succ n =>
      have hget' : fs.get? n = some file := hget
      have := ih (indexFile fi0 idx f) (fi0 + 1) n file r hget' hr hv
      have harith : fi0 + 1 + n = fi0 + (n + 1) := by omega
      rw [harith] at this
      exact this

theorem mem_filesOf_buildFileIndex (src : List (List SRec)) (j : ℕ) (file : List SRec)
    (r : SRec) (hget : src.get? j = some file) (hr : r ∈ file)
    (hv : validKey (r.inchikey.trim) = true) :
    j ∈ filesOf (buildFileIndex src) (r.inchikey.trim) := by
  have := mem_filesOf_buildAux_self src [] 0 j file r hget hr hv
  rwa [Nat.zero_add] at this

/-! ### C6 -/

/-- C6 (counterexample): the lookup result is NOT always a superset of
the literally matching rows — the index build skips the sentinel key
values, so a row whose key is literally the (normalized) string "nan" is
never returned for the query "nan". -/
theorem C6_lookup_superset_counterexample :
    nanKeyRow ∈ ([[nanKeyRow]] : List (List SRec)).flatten
      ∧ nanKeyRow.inchikey = "nan"
      ∧ "nan".trim = "nan"
      ∧ queryByInchikey [[nanKeyRow]] "nan" = [] := by
  with_unfolding_all decide

/-- C6 (amended): for every normalized key k that is not one of the
loader's missing-value sentinels (empty, "nan", or case-insensitively
"none"), the key-index lookup returns a superset of the rows whose key
literally equals k: both the literal-trimmed and whitespace-stripped key
forms are registered during indexing, and row-level filtering accepts
exact, whitespace-normalized and case-insensitive equality, so every
literally matching row is returned regardless of whitespace or case
variation elsewhere in the data. -/
theorem C6_lookup_superset_amended (src : List (List SRec)) (k : String) (r : SRec)
    (hnorm : k.trim = k) (hv : validKey k = true)
    (hr : r ∈ src.flatten) (hkey : r.inchikey = k) :
    r ∈ queryByInchikey src k := by
  rcases List.mem_flatten.mp hr with ⟨file, hfile, hrf⟩
  rcases List.mem_iff_get.mp hfile with ⟨⟨j, hj⟩, rfl⟩
  have hget : src.get? j = some (src.get ⟨j, hj⟩) := List.get?_eq_get hj
  have hkeytrim : r.inchikey.trim = k := by rw [hkey, hnorm]
  have hvr : validKey (r.inchikey.trim) = true := by rw [hkeytrim]; exact hv
  have hfi : j ∈ filesOf (buildFileIndex src) k := by
    have := mem_filesOf_buildFileIndex src j _ r hget hrf hvr
    rwa [hkeytrim] at this
  have hck : containsKey (buildFileIndex src) k = true := containsKey_eq_true k j _ hfi
  have hres : resolveKey (buildFileIndex src) k.trim = some k := by
    unfold resolveKey
    rw [hnorm, if_pos hck]
  show r ∈ (match resolveKey (buildFileIndex src) k.trim with
    | none => ([] : List SRec)
    | some m => (filesOf (buildFileIndex src) m).flatMap fun fi =>
        (src.getD fi []).filter (rowMatches m))
  rw [hres]
  show r ∈ (filesOf (buildFileIndex src) k).flatMap fun fi =>
    (src.getD fi []).filter (rowMatches k)
  apply List.mem_flatMap.mpr
  refine ⟨j, hfi, ?_⟩
  have hgd : src.getD j [] = src.get ⟨j, hj⟩ := by
    unfold List.getD
    rw [hget]
    rfl
  rw [hgd]
  apply List.mem_filter.mpr
  refine ⟨hrf, ?_⟩
  unfold rowMatches
  rw [hkeytrim]
  simp

/-- C6 (witness): the amended superset property at a concrete one-row
source with an ordinary key. -/
theorem C6_lookup_superset_witness :
    plainKeyRow ∈ queryByInchikey [[plainKeyRow]] "ABCDEF" :=
  C6_lookup_superset_amended [[plainKeyRow]] "ABCDEF" plainKeyRow
    (by with_unfolding_all rfl) (by with_unfolding_all rfl)
    (by with_unfolding_all decide) (by with_unfolding_all rfl)

end FlashMRM
